import Mathlib

/-!
Verification development for the repository-ingestion core of the
Astrafenix-AI code base: a shallow embedding, in Lean, of
`src/github/fetcher.py` (class `GitHubFetcher`) and `src/utils/cache.py`
(class `SimpleCache`), together with proofs about it.

Modelling conventions:
* Python strings are modelled as Lean `String` / `List Char`.
* Python `None` / exceptions that a function converts to a return value are
  modelled with `Option`.
* Machine-independent integers (`int`, `time.time()` timestamps) are `Int`;
  counts are `Nat`.
* The cooperative asyncio scheduling of the source serializes each await
  point; the embedding runs the per-file fetch tasks sequentially in list
  order, threading the process-wide cache state exactly as the single
  event-loop thread would.
* Library calls that are not part of this repository (`urllib.parse.urlparse`
  path extraction, `base64.b64decode(...).decode("utf-8")`) are embedded as
  faithful models respectively an abstract parameter `dec` (where
  `dec s = none` models any decode exception: `binascii.Error` or
  `UnicodeDecodeError`).
-/

namespace Astrafenix

/-! ## Generic character-list utilities (models of `str` methods) -/

/-- Model of Python `s.split(sep)` for a one-character separator:
`"a//b".split("/") == ["a", "", "b"]`, `"".split("/") == [""]`. -/
def splitOnChar (c : Char) : List Char → List (List Char)
  | [] => [[]]
  | x :: xs =>
    match splitOnChar c xs with
    | r :: rs => if x = c then [] :: r :: rs else (x :: r) :: rs
    | [] => [[]]

/-- Model of Python `s.rstrip(c)`: drop the trailing run of `c`. -/
def dropTrail (c : Char) : List Char → List Char
  | [] => []
  | x :: xs =>
    match dropTrail c xs with
    | [] => if x = c then [] else [x]
    | y :: ys => x :: y :: ys

/-- Model of Python `s.strip(c)`: drop leading and trailing runs of `c`. -/
def stripChar (c : Char) (l : List Char) : List Char :=
  dropTrail c (l.dropWhile (fun x => x = c))

/-! ## Model of `urllib.parse.urlparse(url).path`

`urlsplit` strips a leading `scheme:` when every character before the first
colon is a scheme character, then strips a `//netloc` component (terminated
by the first `/`, `?` or `#`), then cuts the remainder at the first `#` and
at the first `?`; what is left is `.path`. -/

def schemeChar (c : Char) : Bool :=
  c.isAlpha || c.isDigit || c = '+' || c = '-' || c = '.'

/-- Strip `scheme:` as `urlsplit` does. -/
def stripScheme (l : List Char) : List Char :=
  let pre := l.takeWhile (fun x => x ≠ ':')
  if pre.length > 0 && pre.length < l.length && pre.all schemeChar then
    l.drop (pre.length + 1)
  else l

/-- Strip `//netloc` as `urlsplit._splitnetloc` does. -/
def stripNetloc (l : List Char) : List Char :=
  match l with
  | '/' :: '/' :: rest =>
    rest.dropWhile (fun c => c ≠ '/' && c ≠ '?' && c ≠ '#')
  | _ => l

/-- `urllib.parse.urlparse(url).path` on the character list of `url`. -/
def urlparsePath (l : List Char) : List Char :=
  (((stripNetloc (stripScheme l)).takeWhile (fun c => c ≠ '#')).takeWhile
    (fun c => c ≠ '?'))

/-! ## `GitHubFetcher._parse_url` -/

/-- The `{owner, repo}` dictionary produced by `_parse_url`
(the spec's `RepositoryRef`). -/
structure RepoRef where
  owner : String
  repo : String
  deriving DecidableEq, Repr

/-- Model of Python `url.endswith(".git")` removal in `_parse_url`. -/
def dropDotGit (l : List Char) : List Char :=
  match l.reverse with
  | 't' :: 'i' :: 'g' :: '.' :: rest => rest.reverse
  | _ => l

/-- `GitHubFetcher._parse_url` (src/github/fetcher.py:354-378).
`none` models the `ValueError` raised (and re-raised) on invalid input. -/
def parse_url (repo_url : String) : Option RepoRef :=
  let l0 := dropTrail '/' repo_url.toList
  let l1 := dropDotGit l0
  let path := urlparsePath l1
  let path_parts := splitOnChar '/' (stripChar '/' path)
  match path_parts with
  | p0 :: p1 :: _ => some ⟨⟨p0⟩, ⟨p1⟩⟩
  | _ => none

/-- `full_name` as built by `_parse_url`. -/
def fullName (r : RepoRef) : String := r.owner ++ "/" ++ r.repo

/-! ## `GitHubFetcher._get_extension` and `_is_relevant_file` -/

/-- `GitHubFetcher._get_extension`: `path.split('.')[-1].lower()` when the
path contains a dot, else `"no_ext"`. -/
def _get_extension (path : String) : String :=
  let l := path.toList
  if '.' ∈ l then
    ⟨((splitOnChar '.' l).getLast?.getD []).map Char.toLower⟩
  else "no_ext"

def relevant_extensions : List String :=
  ["py", "js", "jsx", "ts", "html", "css", "json", "md", "txt"]

def no_ext_whitelist : List String :=
  ["readme", "license", "makefile", "dockerfile",
   "contributing", "changelog", "authors", "todo"]

/-- `GitHubFetcher._is_relevant_file`: look at the lower-cased final path
component; accept known extensions, or a whitelist of extensionless names. -/
def _is_relevant_file (path : String) : Bool :=
  let filename := ((splitOnChar '/' path.toList).getLast?.getD []).map Char.toLower
  if '.' ∈ filename then
    relevant_extensions.contains ⟨(splitOnChar '.' filename).getLast?.getD []⟩
  else
    no_ext_whitelist.contains ⟨filename⟩

/-! ## `GitHubFetcher._smart_sample` -/

/-- A Git tree entry as consumed by the fetcher (`f['path']`, `f['type']`).
The spec's `TreeEntry`. -/
structure Entry where
  path : String
  type : String
  deriving DecidableEq, Repr

def extOfEntry (f : Entry) : String := _get_extension f.path

/-- `by_extension[ext]`: the dict of `_smart_sample` appends files in list
order, so each group equals a filter of the input list. -/
def groupOf (files : List Entry) (ext : String) : List Entry :=
  files.filter (fun f => extOfEntry f == ext)

/-- The keys of `by_extension` in first-seen order (Python dicts preserve
insertion order). -/
def firstSeenAux (seen : List String) : List String → List String
  | [] => []
  | x :: xs =>
    if x ∈ seen then firstSeenAux seen xs
    else x :: firstSeenAux (x :: seen) xs

def extensionsOf (files : List Entry) : List String :=
  firstSeenAux [] (files.map extOfEntry)

/-- First pass of `_smart_sample`: from each extension group take
`min(per_extension, len(group))` entries (`by_extension[ext][:take]`). -/
def firstPass (files : List Entry) (per : Nat) : List String → List Entry
  | [] => []
  | e :: es =>
    (groupOf files e).take (min per (groupOf files e).length) ++
      firstPass files per es

/-- Stable insertion for descending sort by group size: an element goes after
every already-placed element with a greater-or-equal key, exactly as Python's
stable `sorted(..., reverse=True)` orders equal keys. -/
def insertDesc (files : List Entry) (x : String) : List String → List String
  | [] => [x]
  | y :: ys =>
    if (groupOf files x).length ≤ (groupOf files y).length then
      y :: insertDesc files x ys
    else x :: y :: ys

/-- `sorted(extensions, key=lambda e: len(by_extension[e]), reverse=True)`. -/
def sortByCountDesc (files : List Entry) (l : List String) : List String :=
  l.foldl (fun acc x => insertDesc files x acc) []

/-- Second pass of `_smart_sample`: fill the remaining slots from the largest
groups, skipping entries already sampled; `remaining <= 0` breaks the loop. -/
def secondPass (files : List Entry) :
    List String → List Entry → Nat → List Entry × Nat
  | [], sampled, remaining => (sampled, remaining)
  | ext :: rest, sampled, remaining =>
    if remaining = 0 then (sampled, remaining)
    else
      let current := (groupOf files ext).filter (fun f => decide (f ∉ sampled))
      if current.isEmpty then secondPass files rest sampled remaining
      else
        let tk := min remaining current.length
        secondPass files rest (sampled ++ current.take tk) (remaining - tk)

/-- `GitHubFetcher._smart_sample` (src/github/fetcher.py:201-265).
When `files` is empty, `max_files // len(extensions)` raises
`ZeroDivisionError` and the `except` fallback returns `files[:max_files]`,
which is `[]`; that is the only reachable exception in the body. -/
def _smart_sample (files : List Entry) (max_files : Nat) : List Entry :=
  if files.isEmpty then files.take max_files
  else
    let exts := extensionsOf files
    let per_extension := max 1 (max_files / exts.length)
    let fp := firstPass files per_extension exts
    if fp.length < max_files then
      let remaining := max_files - fp.length
      let sorted_ext := sortByCountDesc files exts
      let (sampled, _) := secondPass files sorted_ext fp remaining
      sampled.take max_files
    else
      fp.take max_files

/-! ## `SimpleCache` (src/utils/cache.py)

The `OrderedDict` is modelled as a list of entries in insertion order
(oldest first).  Values are heterogeneous in the source (a whole-repo tuple
under `repo:` keys, a content string under `file:` keys), modelled by
`CacheVal`. -/

/-- A fetched file record: `{'path', 'content', 'size', 'extension'}`. -/
structure FileRec where
  path : String
  content : String
  size : Nat
  extension : String
  deriving DecidableEq, Repr

/-- A value stored in the process-wide cache. -/
inductive CacheVal where
  /-- `{'files': ..., 'total': ...}` stored under a `repo:` key; the files
  dict is a path-keyed association list in insertion order. -/
  | repoVal (files : List (String × FileRec)) (total : Nat)
  /-- a decoded content string stored under a `file:` key -/
  | fileVal (content : String)
  deriving DecidableEq, Repr

structure CEntry where
  key : String
  val : CacheVal
  expiry : Int
  deriving DecidableEq, Repr

/-- `SimpleCache.get`: on a hit whose expiry is still in the future return
the value; on an expired hit delete the entry and miss; the (possibly
mutated) cache is returned alongside. -/
def cache_get (c : List CEntry) (k : String) (now : Int) :
    Option CacheVal × List CEntry :=
  match c.find? (fun e => e.key == k) with
  | none => (none, c)
  | some e =>
    if now < e.expiry then (some e.val, c)
    else (none, c.filter (fun e => !(e.key == k)))

/-- `SimpleCache.set`: evict the single oldest-inserted entry when at or
above capacity (`popitem(last=False)`), then insert; assignment to an
existing `OrderedDict` key keeps its position, a new key is appended. -/
def cache_set (maxsize : Nat) (c : List CEntry) (k : String) (v : CacheVal)
    (ttl now : Int) : List CEntry :=
  let c1 := if maxsize ≤ c.length then c.tail else c
  if c1.any (fun e => e.key == k) then
    c1.map (fun e => if e.key == k then ⟨k, v, now + ttl⟩ else e)
  else c1 ++ [⟨k, v, now + ttl⟩]

/-! ## `GitHubFetcher._make_request`

The executor is modelled as a recursion over an oracle assigning a response
to the `k`-th issued request.  `fuel` bounds the recursion depth (the Python
function has no such bound; a `none` result means the recursion was still
running when `fuel` ran out, which is how non-termination is observed).
The semaphore only serializes concurrent callers and is not modelled. -/

/-- The JSON bodies the fetcher reads, as one record of optional fields
(mirroring `dict.get`). -/
structure Jsonish where
  default_branch : Option String := none
  tree : Option (List Entry) := none
  content : Option String := none
  encoding : Option String := none
  deriving DecidableEq, Repr

/-- One HTTP response: status (0 models an `aiohttp.ClientError`, in which
case no headers or body were received), the two rate-limit headers as parsed
by the source (defaults 5000 and 0), whether the body contains the text
`rate limit`, and the parsed JSON body. -/
structure Resp where
  status : Nat
  remaining : Int := 5000
  reset : Int := 0
  rateLimited : Bool := false
  body : Option Jsonish := none
  deriving DecidableEq, Repr

/-- The tracked rate-limit state plus the current clock
(`self.rate_limit_remaining`, `self.rate_limit_reset`, `time.time()`). -/
structure RL where
  remaining : Int
  reset : Int
  now : Int
  deriving DecidableEq, Repr

/-- Result of `_make_request`: the Python return value, the final state, and
a snapshot of the state at the moment each request was issued. -/
structure ReqOut where
  result : Option Jsonish
  rl : RL
  issued : List RL
  deriving DecidableEq, Repr

/-- The pre-issue rate-limit check at the top of `_make_request`: when
`rate_limit_remaining < 10` and the reset is in the future,
`await asyncio.sleep(wait_time)` advances the clock to the reset. -/
def preWait (st : RL) : RL :=
  if st.remaining < 10 && st.now < st.reset
  then { st with now := st.reset } else st

/-- Header update after a response is received: overwrite
`rate_limit_remaining` / `rate_limit_reset` from the response headers. -/
def afterHeaders (st : RL) (r : Resp) : RL :=
  { remaining := r.remaining, reset := r.reset, now := st.now }

/-- `await asyncio.sleep(d)`: the clock advances by `d`. -/
def sleepFor (st : RL) (d : Int) : RL := { st with now := st.now + d }

/-- `wait_time = max(0, reset_time - time.time())` in the 403 branch. -/
def waitTime (r : Resp) (st : RL) : Int := max 0 (r.reset - st.now)

/-- Record the issue-time state snapshot of this call in front of a
recursive call's snapshots (instrumentation for the trace). -/
def pushIssue (v : RL) (o : ReqOut) : ReqOut := { o with issued := v :: o.issued }

/-- `GitHubFetcher._make_request` (src/github/fetcher.py:49-123).

Faithful points worth noting:
* the pre-issue check (`preWait`) sleeps until `rate_limit_reset` when
  `rate_limit_remaining < 10` and the reset is in the future;
* the 403+`rate limit` branch recurses with the **same** `retry_count`;
* the `raise ValueError` on a 401 happens inside the function's own `try`
  whose blanket `except Exception` returns `None`, so a 401 produces the
  return value `None`, not an exception. -/
def make_request (oracle : Nat → Resp) :
    Nat → Nat → Nat → RL → Option ReqOut
  | 0, _, _, _ => none
  | fuel + 1, k, retry_count, st =>
    if (oracle k).status = 0 then
      -- network error: no headers received; retry with backoff, else None
      if retry_count < 3 then
        (make_request oracle fuel (k + 1) (retry_count + 1)
          (sleepFor (preWait st) (2 ^ retry_count))).map (pushIssue (preWait st))
      else some ⟨none, preWait st, [preWait st]⟩
    else
      if (oracle k).status = 403 && (oracle k).rateLimited then
        if 0 < waitTime (oracle k) (preWait st) &&
            waitTime (oracle k) (preWait st) < 3600 then
          (make_request oracle fuel (k + 1) retry_count
            (sleepFor (afterHeaders (preWait st) (oracle k))
              (waitTime (oracle k) (preWait st)))).map (pushIssue (preWait st))
        else some ⟨none, afterHeaders (preWait st) (oracle k), [preWait st]⟩
      else if 500 ≤ (oracle k).status && retry_count < 3 then
        (make_request oracle fuel (k + 1) (retry_count + 1)
          (sleepFor (afterHeaders (preWait st) (oracle k))
            (2 ^ retry_count))).map (pushIssue (preWait st))
      else if (oracle k).status = 200 then
        some ⟨(oracle k).body, afterHeaders (preWait st) (oracle k), [preWait st]⟩
      else if (oracle k).status = 404 then
        some ⟨none, afterHeaders (preWait st) (oracle k), [preWait st]⟩
      else if (oracle k).status = 401 then
        -- raise ValueError(...) swallowed by the blanket except: returns None
        some ⟨none, afterHeaders (preWait st) (oracle k), [preWait st]⟩
      else some ⟨none, afterHeaders (preWait st) (oracle k), [preWait st]⟩

/-! ## The fetch pipeline (`fetch_with_sampling` and helpers)

At this layer each `self._make_request(url)` call is abstracted to its final
outcome `oracle url : Option Jsonish` (`none` = the request, after the retry
machinery modelled by `make_request`, returned `None`); `reqs` counts
`_make_request` invocations, so `reqs = 0` means no network traffic at all.
The clock `now` is held fixed for the duration of one call. -/

def repoInfoUrl (fn : String) : String :=
  "https://api.github.com/repos/" ++ fn

def treeUrl (fn branch : String) : String :=
  "https://api.github.com/repos/" ++ fn ++ "/git/trees/" ++ branch ++
    "?recursive=1"

def contentsUrl (fn path : String) : String :=
  "https://api.github.com/repos/" ++ fn ++ "/contents/" ++ path

/-- `GitHubFetcher._get_repo_tree`: `result if result else {}`.  An untruthy
or missing `'tree'` key shows up as `tree = none` (an empty dict and a dict
without the key are indistinguishable to the later
`not tree or 'tree' not in tree` test). -/
def _get_repo_tree (oracle : String → Option Jsonish) (fn branch : String) :
    Jsonish :=
  (oracle (treeUrl fn branch)).getD {}

/-- The fallback loop of `fetch_with_sampling`
(src/github/fetcher.py:149-164): iterate `['main', 'master']`, skip the
branch equal to the default, overwrite `tree` with each attempt, break on
the first valid one.  Returns the final `tree` value and how many tree
requests the loop issued. -/
def tryFallbacks (oracle : String → Option Jsonish) (fn d : String) :
    List String → Jsonish → Jsonish × Nat
  | [], t => (t, 0)
  | b :: bs, t =>
    if b = d then tryFallbacks oracle fn d bs t
    else
      let t' := _get_repo_tree oracle fn b
      if t'.tree.isSome then (t', 1)
      else
        let (r, n) := tryFallbacks oracle fn d bs t'
        (r, n + 1)

/-- The network half of `_fetch_single_file` (its body from
`data = await self._make_request(url)` on): request the contents URL; when
the response has truthy `content` and base64 encoding, decode (`dec`;
`none` = decode exception → log and return `None`), cache the decoded text
under the `file:` key and return it. -/
def _fetch_single_fresh (oracle : String → Option Jsonish)
    (dec : String → Option String) (ttl : Int) (c1 : List CEntry)
    (now : Int) (fn path : String) : Option String × List CEntry × Nat :=
  match oracle (contentsUrl fn path) with
  | none => (none, c1, 1)
  | some data =>
    if (data.content.getD "") ≠ "" && data.encoding == some "base64" then
      match dec (data.content.getD "") with
      | some content =>
        (some content,
         cache_set 100 c1 ("file:" ++ fn ++ ":" ++ path)
           (.fileVal content) ttl now, 1)
      | none => (none, c1, 1)
    else (none, c1, 1)

/-- `GitHubFetcher._fetch_single_file` (src/github/fetcher.py:315-353):
check the `file:` cache, else fetch and decode via `_fetch_single_fresh`.
Returns `(value, cache, requests issued)`.  `file:` keys only ever hold
`fileVal` values (key namespaces are disjoint), so the `repoVal` hit branch
is unreachable; it is mapped to a miss-shaped `none` merely to keep the
function total. -/
def _fetch_single_file (oracle : String → Option Jsonish)
    (dec : String → Option String) (ttl : Int) (c : List CEntry) (now : Int)
    (fn path : String) : Option String × List CEntry × Nat :=
  let key := "file:" ++ fn ++ ":" ++ path
  match cache_get c key now with
  | (some (.fileVal s), c1) =>
    if s ≠ "" then (some s, c1, 0)
    else
      -- cached falsy value: `if cached:` fails, fall through to the fetch
      _fetch_single_fresh oracle dec ttl c1 now fn path
  | (some (.repoVal _ _), c1) => (none, c1, 0)
  | (none, c1) => _fetch_single_fresh oracle dec ttl c1 now fn path

/-- `GitHubFetcher._fetch_file_contents` (src/github/fetcher.py:278-313):
run `_fetch_single_file` for every entry (`asyncio.gather` over the
single-threaded event loop, assembled in list order) and keep a record for
every truthy result. -/
def _fetch_file_contents (oracle : String → Option Jsonish)
    (dec : String → Option String) (ttl : Int) (c : List CEntry) (now : Int)
    (fn : String) : List Entry → List (String × FileRec) × List CEntry × Nat
  | [] => ([], c, 0)
  | f :: rest =>
    let (r, c1, q1) := _fetch_single_file oracle dec ttl c now fn f.path
    let (rs, c2, q2) := _fetch_file_contents oracle dec ttl c1 now fn rest
    match r with
    | some content =>
      if content ≠ "" then
        ((f.path,
          ⟨f.path, content, content.length, _get_extension f.path⟩) :: rs,
         c2, q1 + q2)
      else (rs, c2, q1 + q2)
    | none => (rs, c2, q1 + q2)

/-- Which return path `fetch_with_sampling` took (instrumentation only). -/
inductive Outcome where
  /-- an error path returning `{}, 0` -/
  | errored
  /-- the `repo:` cache-hit path -/
  | fromCache
  /-- the full success path ending in `cache.set` -/
  | fetched
  deriving DecidableEq, Repr

/-- Output of one `fetch_with_sampling` call: the returned
`(files, total)`, the cache afterwards, the number of `_make_request`
invocations, and which path produced the return. -/
structure FetchOut where
  files : List (String × FileRec)
  total : Nat
  cache : List CEntry
  reqs : Nat
  src : Outcome
  deriving DecidableEq, Repr

/-- The tail of the success path of `fetch_with_sampling`, from
`all_files = tree.get('tree', [])` to the final `cache.set` and return:
filter relevant blobs, sample when over budget, fetch contents, cache the
whole result under the `repo:` key. -/
def fetchFromEntries (oracle : String → Option Jsonish)
    (dec : String → Option String) (ttl : Int) (c : List CEntry) (now : Int)
    (fn : String) (all_files : List Entry) (max_files baseReqs : Nat) :
    FetchOut :=
  let total_count := all_files.length
  let relevant_files :=
    all_files.filter (fun f => f.type == "blob" && _is_relevant_file f.path)
  let sampled_files :=
    if max_files < relevant_files.length then
      _smart_sample relevant_files max_files
    else relevant_files
  let (files, c2, q) :=
    _fetch_file_contents oracle dec ttl c now fn sampled_files
  let c3 := cache_set 100 c2 ("repo:" ++ fn) (.repoVal files total_count)
    ttl now
  ⟨files, total_count, c3, baseReqs + q, .fetched⟩

/-- `GitHubFetcher.fetch_with_sampling` (src/github/fetcher.py:125-199).
Every error path is the outer `except` / early `return {}, 0`.  The
`repo:` cache-hit branch assumes a `repoVal` value (key namespaces are
disjoint); a `fileVal` under a `repo:` key would make `cached['files']`
raise, landing in the outer `except`, hence the `.errored` mapping. -/
def fetch_with_sampling (oracle : String → Option Jsonish)
    (dec : String → Option String) (ttl : Int) (c : List CEntry) (now : Int)
    (repo_url : String) (max_files : Nat) : FetchOut :=
  match parse_url repo_url with
  | none => ⟨[], 0, c, 0, .errored⟩
  | some repo_info =>
    let fn := fullName repo_info
    match cache_get c ("repo:" ++ fn) now with
    | (some (.repoVal fs tot), c1) => ⟨fs, tot, c1, 0, .fromCache⟩
    | (some (.fileVal _), c1) => ⟨[], 0, c1, 0, .errored⟩
    | (none, c1) =>
      match oracle (repoInfoUrl fn) with
      | none => ⟨[], 0, c1, 1, .errored⟩
      | some repo_data =>
        let default_branch := repo_data.default_branch.getD "main"
        let t0 := _get_repo_tree oracle fn default_branch
        let (tree, extraReqs) :=
          if t0.tree.isSome then (t0, 0)
          else tryFallbacks oracle fn default_branch ["main", "master"] t0
        match tree.tree with
        | none => ⟨[], 0, c1, 2 + extraReqs, .errored⟩
        | some all_files =>
          fetchFromEntries oracle dec ttl c1 now fn all_files max_files
            (2 + extraReqs)

/-! ## Concrete scenarios used by the theorems below -/

/-- A network in which every file-content request for `a.py` is answered
401 (so, through `_make_request`'s swallowed `raise`, yields `None`) while
everything else succeeds: repository `a/b`, default branch `main`, two
relevant files. -/
def c1Oracle : String → Option Jsonish := fun u =>
  if u = repoInfoUrl "a/b" then some { default_branch := some "main" }
  else if u = treeUrl "a/b" "main" then
    some { tree := some [⟨"a.py", "blob"⟩, ⟨"b.py", "blob"⟩] }
  else if u = contentsUrl "a/b" "a.py" then none
  else if u = contentsUrl "a/b" "b.py" then
    some { content := some "b2s", encoding := some "base64" }
  else none

/-- Response sequence for C3's counterexample: two quota-exhaustion
responses (reset 10 s away each time), then a success. -/
def c3Oracle : Nat → Resp
  | 0 => ⟨403, 100, 10, true, none⟩
  | 1 => ⟨403, 100, 20, true, none⟩
  | _ => ⟨200, 100, 20, false, some {}⟩

/-- An adversarial network that answers **every** request with a
quota-exhaustion response whose reset is always 10 seconds away. -/
def quotaOracle (k : Nat) : Resp :=
  ⟨403, 5000, 10 * ((k : Int) + 1), true, none⟩

/-- A network that always answers 200 (with fresh rate-limit headers). -/
def c8Oracle : Nat → Resp := fun _ => ⟨200, 4999, 60, false, some {}⟩

/-- A healthy network for repository `a/b`: default branch `main`, a
one-file tree, decodable content. -/
def c4Oracle : String → Option Jsonish := fun u =>
  if u = repoInfoUrl "a/b" then some { default_branch := some "main" }
  else if u = treeUrl "a/b" "main" then
    some { tree := some [⟨"x.py", "blob"⟩] }
  else if u = contentsUrl "a/b" "x.py" then
    some { content := some "hi", encoding := some "base64" }
  else none

/-- The claim C5 scenario: the tree request for the default branch `main`
is answered 404 (`None`), while the tree for `master` succeeds. -/
def c5Oracle : String → Option Jsonish := fun u =>
  if u = repoInfoUrl "a/b" then some { default_branch := some "main" }
  else if u = treeUrl "a/b" "master" then
    some { tree := some [⟨"x.py", "blob"⟩] }
  else if u = contentsUrl "a/b" "x.py" then
    some { content := some "hi", encoding := some "base64" }
  else none

/-- A network on which every tree request fails. -/
def c5FailOracle : String → Option Jsonish := fun u =>
  if u = repoInfoUrl "a/b" then some { default_branch := some "main" }
  else none

/-- The ten file paths of the spec's decode-failure example; `bin.py` is the
binary one. -/
def c7Paths : List String :=
  ["f1.py", "f2.py", "f3.py", "f4.py", "bin.py",
   "f5.py", "f6.py", "f7.py", "f8.py", "f9.py"]

/-- A network answering every content request of the example with a body
whose base64 payload is the path itself. -/
def c7Oracle : String → Option Jsonish := fun u =>
  match c7Paths.find? (fun p => u == contentsUrl "a/b" p) with
  | some p => some { content := some p, encoding := some "base64" }
  | none => none

/-- A decoder for which exactly the payload of `bin.py` is undecodable. -/
def c7Dec : String → Option String := fun s =>
  if s = "bin.py" then none else some s

def c7L1 : List Entry :=
  [⟨"f1.py", "blob"⟩, ⟨"f2.py", "blob"⟩, ⟨"f3.py", "blob"⟩,
   ⟨"f4.py", "blob"⟩]

def c7L2 : List Entry :=
  [⟨"f5.py", "blob"⟩, ⟨"f6.py", "blob"⟩, ⟨"f7.py", "blob"⟩,
   ⟨"f8.py", "blob"⟩, ⟨"f9.py", "blob"⟩]

/-! ## Helper lemmas -/

theorem dropWhile_head_false {p : Char → Bool} {l : List Char} {x : Char}
    {xs : List Char} (h : l.dropWhile p = x :: xs) : p x = false := by
  induction l with
  | nil => simp at h
  | cons a as ih =>
    rw [List.dropWhile_cons] at h
    by_cases hp : p a = true
    · exact ih (by simpa [hp] using h)
    · simp [hp] at h
      simp [← h.1, Bool.eq_false_iff, hp]

theorem dropTrail_head (c : Char) (x : Char) (xs : List Char) :
    dropTrail c (x :: xs) = [] ∨ ∃ t, dropTrail c (x :: xs) = x :: t := by
  rw [dropTrail]
  match h : dropTrail c xs with
  | [] =>
    by_cases hx : x = c
    · simp [hx]
    · simp [hx]
  | y :: ys => simp

theorem stripChar_head {c : Char} {l : List Char} {x : Char} {xs : List Char}
    (h : stripChar c l = x :: xs) : x ≠ c := by
  unfold stripChar at h
  match hd : l.dropWhile (fun y => y = c) with
  | [] => rw [hd] at h; simp [dropTrail] at h
  | y :: ys =>
    have hy : (y = c) = false := by
      simpa using @dropWhile_head_false (fun y => decide (y = c)) _ _ _ hd
    rw [hd] at h
    rcases dropTrail_head c y ys with h0 | ⟨t, ht⟩
    · rw [h0] at h; exact absurd h (by simp)
    · rw [ht] at h
      cases h
      simp at hy
      exact hy

theorem splitOnChar_ne_nil (c : Char) (l : List Char) :
    splitOnChar c l ≠ [] := by
  cases l with
  | nil => simp [splitOnChar]
  | cons x xs =>
    rw [splitOnChar]
    match h : splitOnChar c xs with
    | [] => simp
    | r :: rs =>
      by_cases hx : x = c <;> simp [hx]

theorem splitOnChar_not_mem (c : Char) (l : List Char) :
    ∀ p ∈ splitOnChar c l, c ∉ p := by
  induction l with
  | nil => intro p hp; simp [splitOnChar] at hp; simp [hp]
  | cons x xs ih =>
    intro p hp
    rw [splitOnChar] at hp
    match h : splitOnChar c xs with
    | [] => exact absurd h (splitOnChar_ne_nil c xs)
    | r :: rs =>
      rw [h] at hp
      by_cases hx : x = c
      · simp [hx] at hp
        rcases hp with hp | hp | hp
        · simp [hp]
        · rw [hp]; exact ih r (by rw [h]; exact List.mem_cons_self r rs)
        · exact ih p (by rw [h]; exact List.mem_cons_of_mem r hp)
      · simp [hx] at hp
        rcases hp with hp | hp
        · subst hp
          intro hc
          rcases List.mem_cons.mp hc with hc | hc
          · exact hx hc.symm
          · exact ih r (by rw [h]; exact List.mem_cons_self r rs) hc
        · exact ih p (by rw [h]; exact List.mem_cons_of_mem r hp)

theorem splitOnChar_head_cons {c x : Char} {xs : List Char} (hx : x ≠ c) :
    ∃ t rs, splitOnChar c (x :: xs) = (x :: t) :: rs := by
  rw [splitOnChar]
  match h : splitOnChar c xs with
  | [] => exact absurd h (splitOnChar_ne_nil c xs)
  | r :: rs => exact ⟨r, rs, by simp [hx]⟩

/-! ## Claim C6 — `_parse_url` output invariants -/

/-- C6, counterexample: the parser accepts
`https://github.com/owner//repo` (consecutive slashes in the path) and
returns an **empty** repository name, so "non-empty name" fails as stated. -/
theorem c6_counterexample :
    parse_url "https://github.com/owner//repo" =
      some { owner := "owner", repo := "" } := by
  rfl

/-- C6, amended: for every accepted URL the owner is non-empty and neither
owner nor name contains a path separator; the name, however, is the second
`/`-separated path component verbatim and can be empty when the path
contains consecutive slashes. -/
theorem c6_parse_url_invariants (url : String) (r : RepoRef)
    (h : parse_url url = some r) :
    r.owner ≠ "" ∧ '/' ∉ r.owner.toList ∧ '/' ∉ r.repo.toList := by
  simp only [parse_url] at h
  generalize hpath : urlparsePath (dropDotGit (dropTrail '/' url.toList)) = path at h
  match hs : splitOnChar '/' (stripChar '/' path) with
  | [] => rw [hs] at h; exact absurd h (by simp)
  | [p] => rw [hs] at h; exact absurd h (by simp)
  | p0 :: p1 :: rest =>
    rw [hs] at h
    have hr : r = ⟨⟨p0⟩, ⟨p1⟩⟩ := by
      simpa using h.symm
    subst hr
    have hmem0 : p0 ∈ splitOnChar '/' (stripChar '/' path) := by
      rw [hs]; exact List.mem_cons_self _ _
    have hmem1 : p1 ∈ splitOnChar '/' (stripChar '/' path) := by
      rw [hs]; exact List.mem_cons_of_mem _ (List.mem_cons_self _ _)
    refine ⟨?_, splitOnChar_not_mem _ _ _ hmem0, splitOnChar_not_mem _ _ _ hmem1⟩
    -- owner non-empty: the stripped path cannot be empty (that would give a
    -- single component) and its head is not '/', so the first component
    -- starts with that head.
    match hst : stripChar '/' path with
    | [] => rw [hst] at hs; simp [splitOnChar] at hs
    | x :: xs =>
      have hx : x ≠ '/' := stripChar_head hst
      obtain ⟨t, rs, hsp⟩ := @splitOnChar_head_cons '/' x xs hx
      rw [hst, hsp] at hs
      cases hs
      simp [String.ext_iff]

/-- Witness for C6 (amended): a well-formed URL, parsed, satisfies the
invariants. -/
theorem c6_witness :
    ∃ r, parse_url "https://github.com/torvalds/linux.git" = some r ∧
      (r.owner ≠ "" ∧ '/' ∉ r.owner.toList ∧ '/' ∉ r.repo.toList) :=
  ⟨⟨"torvalds", "linux"⟩, rfl,
    c6_parse_url_invariants "https://github.com/torvalds/linux.git" _ rfl⟩

/-! ## Claim C9 — `SimpleCache.set` eviction -/

/-- C9: whenever a `set` finds the cache at or above capacity, it evicts
exactly the single oldest-inserted entry before storing — no expiry is
consulted anywhere (the statement quantifies over all expiries, including
long-past and far-future ones), and every other entry survives.  With
`c = e₀ :: rest` (`e₀` the oldest-inserted entry):
* no entry with the evicted key survives (unless it is re-inserted as the
  new key itself),
* every other entry of `rest` whose key differs from `k` is kept unchanged,
* the new value is stored with expiry `now + ttl`,
* the size accounting shows exactly one eviction plus one insert/overwrite. -/
theorem c9_eviction_fifo (maxsize : Nat) (e₀ : CEntry) (rest : List CEntry)
    (k : String) (v : CacheVal) (ttl now : Int)
    (hfull : maxsize ≤ (e₀ :: rest).length)
    (hkeys : ((e₀ :: rest).map CEntry.key).Nodup) :
    (e₀.key ≠ k → ∀ e ∈ cache_set maxsize (e₀ :: rest) k v ttl now,
       e.key ≠ e₀.key) ∧
    (∀ e ∈ rest, e.key ≠ k →
       e ∈ cache_set maxsize (e₀ :: rest) k v ttl now) ∧
    (⟨k, v, now + ttl⟩ : CEntry) ∈ cache_set maxsize (e₀ :: rest) k v ttl now ∧
    (cache_set maxsize (e₀ :: rest) k v ttl now).length =
      (if rest.any (fun e => e.key == k) then rest.length
       else rest.length + 1) := by
  have htail : (if maxsize ≤ (e₀ :: rest).length then (e₀ :: rest).tail
      else (e₀ :: rest)) = rest := by
    rw [if_pos hfull]; rfl
  have h0 : e₀.key ∉ rest.map CEntry.key := by
    rw [List.map_cons, List.nodup_cons] at hkeys
    exact hkeys.1
  unfold cache_set
  rw [htail]
  by_cases hany : rest.any (fun e => e.key == k)
  · -- overwrite-in-place branch
    simp only [hany, if_true]
    refine ⟨?_, ?_, ?_, by simp⟩
    · intro hne e he
      obtain ⟨a, ha, hae⟩ := List.mem_map.mp he
      by_cases hak : a.key = k
      · rw [if_pos (by simpa using hak)] at hae
        rw [← hae]
        exact fun hc => hne hc.symm
      · rw [if_neg (by simpa using hak)] at hae
        rw [← hae]
        intro hc
        exact h0 (hc ▸ List.mem_map_of_mem CEntry.key ha)
    · intro e he hek
      exact List.mem_map.mpr ⟨e, he, by rw [if_neg (by simpa using hek)]⟩
    · obtain ⟨a, ha, hak⟩ := List.any_eq_true.mp hany
      exact List.mem_map.mpr ⟨a, ha, by rw [if_pos hak]⟩
  · -- append branch
    simp only [hany, if_false]
    refine ⟨?_, ?_, ?_, by simp⟩
    · intro hne e he
      rcases List.mem_append.mp he with he | he
      · intro hc
        exact h0 (hc ▸ List.mem_map_of_mem CEntry.key he)
      · rw [List.mem_singleton.mp he]
        exact fun hc => hne hc.symm
    · intro e he _
      exact List.mem_append_left _ he
    · exact List.mem_append_right _ (List.mem_singleton.mpr rfl)

/-- Witness for C9: a full cache of size 1 whose only (already expired!)
entry is evicted by the next `set`, showing TTL-independence. -/
theorem c9_witness :
    ((⟨"a", .fileVal "x", 5⟩ : CEntry).key ≠ "b" →
       ∀ e ∈ cache_set 1 [⟨"a", .fileVal "x", 5⟩] "b" (.fileVal "y") 300 10,
         e.key ≠ "a") ∧
    (∀ e ∈ ([] : List CEntry), e.key ≠ "b" →
       e ∈ cache_set 1 [⟨"a", .fileVal "x", 5⟩] "b" (.fileVal "y") 300 10) ∧
    (⟨"b", .fileVal "y", (310 : Int)⟩ : CEntry) ∈
      cache_set 1 [⟨"a", .fileVal "x", 5⟩] "b" (.fileVal "y") 300 10 ∧
    (cache_set 1 [⟨"a", .fileVal "x", 5⟩] "b" (.fileVal "y") 300 10).length =
      (if ([] : List CEntry).any (fun e => e.key == "b") then
        ([] : List CEntry).length
       else ([] : List CEntry).length + 1) :=
  c9_eviction_fifo 1 ⟨"a", .fileVal "x", 5⟩ [] "b" (.fileVal "y") 300 10
    (by decide) (by simp)

/-! ## Claim C1 — behaviour on a 401 (invalid credential) -/

/-- C1: what the code actually does on a 401 — the `raise ValueError` in
`_make_request` is caught by the function's own blanket
`except Exception: return None`, so an auth failure is indistinguishable
from a 404.  At the failing input (the file-content request for `a.py`
answered 401, everything else successful):
* `_make_request` on a 401 returns `None` instead of propagating a typed
  failure (first conjunct);
* the orchestrator does **not** abort: it keeps issuing requests, returns
  the partial result containing `b.py`, and caches it (remaining
  conjuncts) — contradicting the claim's required abort-discard-surface
  behaviour. -/
theorem c1_auth_failure_swallowed :
    (make_request (fun _ => { status := 401, remaining := 100 }) 5 0 0
        ⟨5000, 0, 0⟩ =
      some { result := none, rl := ⟨100, 0, 0⟩, issued := [⟨5000, 0, 0⟩] }) ∧
    (fetch_with_sampling c1Oracle some 300 [] 0
        "https://github.com/a/b" 20).files =
      [("b.py", ⟨"b.py", "b2s", 3, "py"⟩)] ∧
    (fetch_with_sampling c1Oracle some 300 [] 0
        "https://github.com/a/b" 20).src = .fetched ∧
    (cache_get (fetch_with_sampling c1Oracle some 300 [] 0
        "https://github.com/a/b" 20).cache "repo:a/b" 100).1 =
      some (.repoVal [("b.py", ⟨"b.py", "b2s", 3, "py"⟩)] 2) := by
  refine ⟨rfl, rfl, rfl, rfl⟩

/-! ## Claim C3 — quota-exhaustion handling in `_make_request` -/

/-- C3, counterexample: after the first quota-exhaustion wait-and-retry, a
*second* quota-exhaustion response does not fail the request as the claim
demands ("retries the same request exactly once") — the code retries again
with an unchanged attempt counter and, on the third response, succeeds:
three requests are issued for one logical request. -/
theorem c3_counterexample :
    make_request c3Oracle 10 0 0 ⟨5000, 0, 0⟩ =
      some { result := some {}, rl := ⟨100, 20, 20⟩,
             issued := [⟨5000, 0, 0⟩, ⟨100, 10, 10⟩, ⟨100, 20, 20⟩] } := by
  rfl

/-- C3, amended: on each quota-exhaustion response with
`0 < resetAt - now < 3600` the executor sleeps until `resetAt` and
re-issues the request with an **unchanged** attempt counter, so against a
persistent quota-exhaustion sequence the number of re-issues is unbounded
(first conjunct: for every recursion budget the call is still running —
the Python recursion never terminates); when the computed wait is zero
(reset not in the future) or at least one hour, the request instead fails
immediately by returning `None` after a single issue (second conjunct). -/
theorem c3_quota_retry_behavior :
    (∀ fuel k retry,
       make_request quotaOracle fuel k retry
         ⟨5000, 10 * (k : Int), 10 * (k : Int)⟩ = none) ∧
    (∀ (oracle : Nat → Resp) (k retry : Nat) (st : RL) (fuel : Nat),
       (oracle k).status = 403 → (oracle k).rateLimited = true →
       10 ≤ st.remaining →
       ((oracle k).reset ≤ st.now ∨ st.now + 3600 ≤ (oracle k).reset) →
       make_request oracle (fuel + 1) k retry st =
         some { result := none,
                rl := ⟨(oracle k).remaining, (oracle k).reset, st.now⟩,
                issued := [st] }) := by
  constructor
  · intro fuel
    induction fuel with
    | zero => intro k retry; rfl
    | succ n ih =>
      intro k retry
      have hih := ih (k + 1) retry
      have hcast : ((k + 1 : Nat) : Int) = (k : Int) + 1 := by push_cast; ring
      rw [hcast] at hih
      rw [make_request]
      have hq : quotaOracle k = ⟨403, 5000, 10 * ((k : Int) + 1), true, none⟩ := rfl
      have hpw : preWait ⟨5000, 10 * (k : Int), 10 * (k : Int)⟩ =
          ⟨5000, 10 * (k : Int), 10 * (k : Int)⟩ := by
        unfold preWait
        rw [if_neg]
        simp
      simp only [hq, hpw]
      have hwt : waitTime ⟨403, 5000, 10 * ((k : Int) + 1), true, none⟩
          ⟨5000, 10 * (k : Int), 10 * (k : Int)⟩ = 10 := by
        unfold waitTime
        show max 0 (10 * ((k : Int) + 1) - 10 * (k : Int)) = 10
        have h10 : (10 : Int) * ((k : Int) + 1) - 10 * (k : Int) = 10 := by ring
        rw [h10]
        rfl
      rw [hwt]
      norm_num
      have hnow : (10 : Int) * (k : Int) + 10 = 10 * ((k : Int) + 1) := by ring
      have harg : sleepFor (afterHeaders ⟨5000, 10 * (k : Int), 10 * (k : Int)⟩
          ⟨403, 5000, 10 * ((k : Int) + 1), true, none⟩) 10 =
          ⟨5000, 10 * ((k : Int) + 1), 10 * ((k : Int) + 1)⟩ := by
        unfold sleepFor afterHeaders
        rw [hnow]
      rw [harg, hih]
  · intro oracle k retry st fuel h403 hrl hrem hfail
    rw [make_request]
    have hpw : preWait st = st := by
      unfold preWait
      rw [if_neg]
      simp only [Bool.and_eq_true, decide_eq_true_eq, not_and]
      intro h1
      omega
    have hs0 : ((oracle k).status = 0) = False := by simp [h403]
    simp only [hpw, hs0, h403, hrl]
    norm_num
    have hwfail : ¬(0 < waitTime (oracle k) st ∧ waitTime (oracle k) st < 3600) := by
      unfold waitTime
      rcases hfail with hle | hge
      · rw [max_eq_left (by omega)]
        rintro ⟨h1, _⟩
        omega
      · rw [max_eq_right (by omega)]
        rintro ⟨_, h2⟩
        omega
    rw [if_neg hwfail]
    rfl

/-- Witness for C3 (amended): the adversarial oracle exhausts a concrete
budget of 5, and a single out-of-range quota response (reset one hour
away) fails after one issue. -/
theorem c3_witness :
    make_request quotaOracle 5 0 0 ⟨5000, 0, 0⟩ = none ∧
    make_request (fun _ => ⟨403, 100, 3600, true, none⟩) 3 0 0
        ⟨5000, 0, 0⟩ =
      some { result := none, rl := ⟨100, 3600, 0⟩, issued := [⟨5000, 0, 0⟩] } :=
  ⟨by simpa using c3_quota_retry_behavior.1 5 0 0,
   c3_quota_retry_behavior.2 (fun _ => ⟨403, 100, 3600, true, none⟩) 0 0
     ⟨5000, 0, 0⟩ 2 rfl rfl (by norm_num) (by norm_num)⟩

/-! ## Claim C8 — low-quota suspension before issuing -/

/-- C8: along every terminating run of `_make_request`, every request is
issued in a state where the tracked remaining quota is not below 10 with a
future reset (the pre-issue check re-runs on every recursive retry); and
when the initial state does have `remaining < 10` with `resetAt` in the
future, the first request is issued only after suspending until `resetAt`
(its issue-time clock equals `resetAt`). -/
theorem c8_low_quota_suspends (oracle : Nat → Resp) (fuel k retry : Nat)
    (st : RL) (o : ReqOut)
    (h : make_request oracle fuel k retry st = some o) :
    (∀ v ∈ o.issued, v.remaining < 10 → v.reset ≤ v.now) ∧
    (st.remaining < 10 → st.now < st.reset →
      o.issued.head? = some { st with now := st.reset }) := by
  induction fuel generalizing k retry st o with
  | zero => exact absurd h (by rw [make_request]; simp)
  | succ n ih =>
    -- the state at issue time satisfies the invariant by construction
    have hinv : (preWait st).remaining < 10 → (preWait st).reset ≤ (preWait st).now := by
      unfold preWait
      by_cases hc : st.remaining < 10 ∧ st.now < st.reset
      · rw [if_pos (by simp [hc.1, hc.2])]
        exact fun _ => le_refl _
      · rw [if_neg (by simpa using fun h1 h2 => hc ⟨h1, h2⟩)]
        intro h1
        by_contra h2
        exact hc ⟨h1, by omega⟩
    have hsusp : st.remaining < 10 → st.now < st.reset →
        preWait st = { st with now := st.reset } := by
      intro h1 h2
      unfold preWait
      rw [if_pos (by simp [h1, h2])]
    have hrecur : ∀ (k' retry' : Nat) (st' : RL) (o' : ReqOut),
        make_request oracle n k' retry' st' = some o' →
        o = pushIssue (preWait st) o' →
        (∀ v ∈ o.issued, v.remaining < 10 → v.reset ≤ v.now) ∧
        (st.remaining < 10 → st.now < st.reset →
          o.issued.head? = some { st with now := st.reset }) := by
      intro k' retry' st' o' hm ho
      obtain ⟨ihv, _⟩ := ih k' retry' st' o' hm
      subst ho
      constructor
      · intro v hv
        rcases List.mem_cons.mp (by simpa [pushIssue] using hv) with hv | hv
        · rw [hv]; exact hinv
        · exact ihv v hv
      · intro h1 h2
        simp [pushIssue, hsusp h1 h2]
    have hterm : ∀ (res : Option Jsonish) (rl : RL),
        o = ⟨res, rl, [preWait st]⟩ →
        (∀ v ∈ o.issued, v.remaining < 10 → v.reset ≤ v.now) ∧
        (st.remaining < 10 → st.now < st.reset →
          o.issued.head? = some { st with now := st.reset }) := by
      intro res rl ho
      subst ho
      constructor
      · intro v hv
        rw [List.mem_singleton.mp hv]
        exact hinv
      · intro h1 h2
        simp [hsusp h1 h2]
    rw [make_request] at h
    by_cases hs0 : (oracle k).status = 0
    · rw [if_pos hs0] at h
      by_cases hr : retry < 3
      · rw [if_pos hr] at h
        obtain ⟨o', hm, ho⟩ := Option.map_eq_some'.mp h
        exact hrecur _ _ _ o' hm ho.symm
      · rw [if_neg hr] at h
        exact hterm none _ (Option.some.inj h).symm
    · rw [if_neg hs0] at h
      by_cases h403 : ((oracle k).status = 403 && (oracle k).rateLimited) = true
      · rw [if_pos h403] at h
        by_cases hw : (0 < waitTime (oracle k) (preWait st) &&
            waitTime (oracle k) (preWait st) < 3600) = true
        · rw [if_pos hw] at h
          obtain ⟨o', hm, ho⟩ := Option.map_eq_some'.mp h
          exact hrecur _ _ _ o' hm ho.symm
        · rw [if_neg hw] at h
          exact hterm none _ (Option.some.inj h).symm
      · rw [if_neg h403] at h
        by_cases h5 : (500 ≤ (oracle k).status && retry < 3) = true
        · rw [if_pos h5] at h
          obtain ⟨o', hm, ho⟩ := Option.map_eq_some'.mp h
          exact hrecur _ _ _ o' hm ho.symm
        · rw [if_neg h5] at h
          by_cases h200 : (oracle k).status = 200
          · rw [if_pos h200] at h
            exact hterm _ _ (Option.some.inj h).symm
          · rw [if_neg h200] at h
            by_cases h404 : (oracle k).status = 404
            · rw [if_pos h404] at h
              exact hterm none _ (Option.some.inj h).symm
            · rw [if_neg h404] at h
              by_cases h401 : (oracle k).status = 401
              · rw [if_pos h401] at h
                exact hterm none _ (Option.some.inj h).symm
              · rw [if_neg h401] at h
                exact hterm none _ (Option.some.inj h).symm

/-- Witness for C8: the spec's scenario — `remaining = 5`, reset 50 seconds
in the future: the single issued request carries issue-time clock 50
(= `resetAt`), satisfying the invariant. -/
theorem c8_witness :
    (∀ v ∈ (ReqOut.mk (some {}) ⟨4999, 60, 50⟩ [⟨5, 50, 50⟩]).issued,
       v.remaining < 10 → v.reset ≤ v.now) ∧
    ((5 : Int) < 10 → (0 : Int) < 50 →
      (ReqOut.mk (some {}) ⟨4999, 60, 50⟩ [⟨5, 50, 50⟩]).issued.head? =
        some { RL.mk 5 50 0 with now := 50 }) :=
  c8_low_quota_suspends c8Oracle 5 0 0 ⟨5, 50, 0⟩
    (ReqOut.mk (some {}) ⟨4999, 60, 50⟩ [⟨5, 50, 50⟩]) rfl

/-! ## Cache lemmas shared by the orchestrator claims -/

theorem find?_map_replace (k : String) (v : CacheVal) (exp : Int) :
    ∀ (l : List CEntry), l.any (fun e => e.key == k) = true →
      (l.map (fun e => if e.key == k then ⟨k, v, exp⟩ else e)).find?
          (fun e => e.key == k) = some ⟨k, v, exp⟩ := by
  intro l
  induction l with
  | nil => intro h; simp at h
  | cons e es ih =>
    intro h
    by_cases he : e.key = k
    · simp only [List.map_cons, List.find?_cons]
      rw [if_pos (by simpa using he)]
      simp
    · simp only [List.map_cons, List.find?_cons]
      rw [if_neg (by simpa using he)]
      have : (e.key == k) = false := by simpa using he
      rw [this]
      simp only [List.any_cons, this, Bool.false_or] at h
      exact ih h

theorem find?_append_new (k : String) (v : CacheVal) (exp : Int) :
    ∀ (l : List CEntry), l.any (fun e => e.key == k) = false →
      (l ++ [(⟨k, v, exp⟩ : CEntry)]).find? (fun e => e.key == k) =
        some ⟨k, v, exp⟩ := by
  intro l
  induction l with
  | nil => simp
  | cons e es ih =>
    intro h
    simp only [List.any_cons, Bool.or_eq_false_iff] at h
    simp only [List.cons_append, List.find?_cons, h.1]
    exact ih h.2

/-- Reading back a value immediately after `set`, before its TTL expires,
yields that value and leaves the cache untouched. -/
theorem cache_get_after_set (mx : Nat) (c : List CEntry) (k : String)
    (v : CacheVal) (ttl now t' : Int) (h : t' < now + ttl) :
    cache_get (cache_set mx c k v ttl now) k t' =
      (some v, cache_set mx c k v ttl now) := by
  unfold cache_set
  set c1 := if mx ≤ c.length then c.tail else c with hc1
  by_cases hany : c1.any (fun e => e.key == k) = true
  · rw [if_pos hany]
    unfold cache_get
    rw [find?_map_replace k v (now + ttl) c1 hany]
    dsimp only
    rw [if_pos h]
  · rw [if_neg hany]
    unfold cache_get
    rw [find?_append_new k v (now + ttl) c1 (by simpa using hany)]
    dsimp only
    rw [if_pos h]

/-! ## Claims C4 and C10 — the whole-result cache -/

/-- Core inversion: a run that took the full success path wrote its own
output under the `repo:` key, with expiry `now + ttl`; any lookup before
that expiry returns exactly the run's output without mutating the cache. -/
theorem fetch_writes_repo_entry (oracle : String → Option Jsonish)
    (dec : String → Option String) (ttl : Int) (c : List CEntry) (t1 : Int)
    (u : String) (B : Nat)
    (hsrc : (fetch_with_sampling oracle dec ttl c t1 u B).src = .fetched) :
    ∃ pr, parse_url u = some pr ∧
      ∀ t2, t2 < t1 + ttl →
        cache_get (fetch_with_sampling oracle dec ttl c t1 u B).cache
            ("repo:" ++ fullName pr) t2 =
          (some (.repoVal (fetch_with_sampling oracle dec ttl c t1 u B).files
             (fetch_with_sampling oracle dec ttl c t1 u B).total),
           (fetch_with_sampling oracle dec ttl c t1 u B).cache) := by
  rcases hp : parse_url u with _ | pr
  · rw [show fetch_with_sampling oracle dec ttl c t1 u B = ⟨[], 0, c, 0, .errored⟩
        from by simp only [fetch_with_sampling, hp]] at hsrc
    exact absurd hsrc (by simp)
  · refine ⟨pr, rfl, ?_⟩
    intro t2 ht2
    rcases hcg : cache_get c ("repo:" ++ fullName pr) t1 with ⟨ov, c1⟩
    rcases ov with _ | val
    · -- cache miss: the run proceeds to the network
      rcases hinfo : oracle (repoInfoUrl (fullName pr)) with _ | rd
      · rw [show fetch_with_sampling oracle dec ttl c t1 u B = ⟨[], 0, c1, 1, .errored⟩
            from by simp only [fetch_with_sampling, hp, hcg, hinfo]] at hsrc
        exact absurd hsrc (by simp)
      · rcases htr : (if (_get_repo_tree oracle (fullName pr)
              (rd.default_branch.getD "main")).tree.isSome then
            (_get_repo_tree oracle (fullName pr)
              (rd.default_branch.getD "main"), 0)
          else tryFallbacks oracle (fullName pr)
            (rd.default_branch.getD "main") ["main", "master"]
            (_get_repo_tree oracle (fullName pr)
              (rd.default_branch.getD "main"))) with ⟨tr, er⟩
        rcases htt : tr.tree with _ | all_files
        · rw [show fetch_with_sampling oracle dec ttl c t1 u B
                = ⟨[], 0, c1, 2 + er, .errored⟩
              from by
                simp only [fetch_with_sampling, hp, hcg, hinfo, htr, htt]] at hsrc
          exact absurd hsrc (by simp)
        · have hrun : fetch_with_sampling oracle dec ttl c t1 u B =
              fetchFromEntries oracle dec ttl c1 t1 (fullName pr) all_files B
                (2 + er) := by
            simp only [fetch_with_sampling, hp, hcg, hinfo, htr, htt]
          rw [hrun]
          simp only [fetchFromEntries]
          rcases hfc : _fetch_file_contents oracle dec ttl c1 t1 (fullName pr)
              (if B < (all_files.filter (fun f => f.type == "blob" &&
                    _is_relevant_file f.path)).length then
                 _smart_sample (all_files.filter (fun f => f.type == "blob" &&
                    _is_relevant_file f.path)) B
               else all_files.filter (fun f => f.type == "blob" &&
                    _is_relevant_file f.path)) with ⟨fs, c2, q⟩
          simp only [hfc]
          exact cache_get_after_set 100 c2 ("repo:" ++ fullName pr)
            (.repoVal fs all_files.length) ttl t1 t2 ht2
    · -- cache hit branches cannot have produced `.fetched`
      cases val with
      | repoVal fs tot =>
        rw [show fetch_with_sampling oracle dec ttl c t1 u B
              = ⟨fs, tot, c1, 0, .fromCache⟩
            from by simp only [fetch_with_sampling, hp, hcg]] at hsrc
        exact absurd hsrc (by simp)
      | fileVal s =>
        rw [show fetch_with_sampling oracle dec ttl c t1 u B
              = ⟨[], 0, c1, 0, .errored⟩
            from by simp only [fetch_with_sampling, hp, hcg]] at hsrc
        exact absurd hsrc (by simp)

/-- Any later call against the cache a fetched run produced, with the same
URL and any budget or network, is served entirely from the cache. -/
theorem second_call_cached (oracle oracle2 : String → Option Jsonish)
    (dec dec2 : String → Option String) (ttl : Int) (c : List CEntry)
    (t1 t2 : Int) (u : String) (B B2 : Nat)
    (hsrc : (fetch_with_sampling oracle dec ttl c t1 u B).src = .fetched)
    (hlive : t2 < t1 + ttl) :
    fetch_with_sampling oracle2 dec2 ttl
        (fetch_with_sampling oracle dec ttl c t1 u B).cache t2 u B2 =
      ⟨(fetch_with_sampling oracle dec ttl c t1 u B).files,
       (fetch_with_sampling oracle dec ttl c t1 u B).total,
       (fetch_with_sampling oracle dec ttl c t1 u B).cache, 0, .fromCache⟩ := by
  obtain ⟨pr, hp, hcache⟩ :=
    fetch_writes_repo_entry oracle dec ttl c t1 u B hsrc
  set o1 := fetch_with_sampling oracle dec ttl c t1 u B with ho1
  simp only [fetch_with_sampling, hp, hcache t2 hlive]

/-- C4: if a first orchestrator call with URL `u` and budget `B` succeeds
(takes the full success path), a second call with the same URL and budget
made before the cached entry expires (and against the cache state the first
call left, i.e. before any eviction) returns exactly the first call's
`(files, total)`, issues zero network requests, and leaves the cache
unchanged. -/
theorem c4_second_call_idempotent (oracle : String → Option Jsonish)
    (dec : String → Option String) (ttl : Int) (c : List CEntry)
    (t1 t2 : Int) (u : String) (B : Nat)
    (hsrc : (fetch_with_sampling oracle dec ttl c t1 u B).src = .fetched)
    (hlive : t2 < t1 + ttl) :
    fetch_with_sampling oracle dec ttl
        (fetch_with_sampling oracle dec ttl c t1 u B).cache t2 u B =
      ⟨(fetch_with_sampling oracle dec ttl c t1 u B).files,
       (fetch_with_sampling oracle dec ttl c t1 u B).total,
       (fetch_with_sampling oracle dec ttl c t1 u B).cache, 0, .fromCache⟩ :=
  second_call_cached oracle oracle dec dec ttl c t1 t2 u B B hsrc hlive

/-- C10: the whole-result cache key is `repo:<owner>/<name>` — the budget is
not part of it.  A second call with the same URL but a **different** budget
`B2`, while the entry is live, returns the files sampled under the first
call's budget `B` with zero network requests and no re-sampling. -/
theorem c10_budget_not_in_cache_key (oracle : String → Option Jsonish)
    (dec : String → Option String) (ttl : Int) (c : List CEntry)
    (t1 t2 : Int) (u : String) (B B2 : Nat)
    (hsrc : (fetch_with_sampling oracle dec ttl c t1 u B).src = .fetched)
    (hlive : t2 < t1 + ttl) (_hne : B2 ≠ B) :
    fetch_with_sampling oracle dec ttl
        (fetch_with_sampling oracle dec ttl c t1 u B).cache t2 u B2 =
      ⟨(fetch_with_sampling oracle dec ttl c t1 u B).files,
       (fetch_with_sampling oracle dec ttl c t1 u B).total,
       (fetch_with_sampling oracle dec ttl c t1 u B).cache, 0, .fromCache⟩ :=
  second_call_cached oracle oracle dec dec ttl c t1 t2 u B B2 hsrc hlive

/-- Witness for C4: a concrete first call (empty cache, clock 0) followed by
the same call at clock 100 with TTL 300. -/
theorem c4_witness :
    fetch_with_sampling c4Oracle some 300
        (fetch_with_sampling c4Oracle some 300 [] 0
          "https://github.com/a/b" 20).cache 100 "https://github.com/a/b" 20 =
      ⟨(fetch_with_sampling c4Oracle some 300 [] 0
          "https://github.com/a/b" 20).files,
       (fetch_with_sampling c4Oracle some 300 [] 0
          "https://github.com/a/b" 20).total,
       (fetch_with_sampling c4Oracle some 300 [] 0
          "https://github.com/a/b" 20).cache, 0, .fromCache⟩ :=
  c4_second_call_idempotent c4Oracle some 300 [] 0 100
    "https://github.com/a/b" 20 rfl (by norm_num)

/-- Witness for C10: same first call, second call with a different budget. -/
theorem c10_witness :
    fetch_with_sampling c4Oracle some 300
        (fetch_with_sampling c4Oracle some 300 [] 0
          "https://github.com/a/b" 20).cache 100 "https://github.com/a/b" 5 =
      ⟨(fetch_with_sampling c4Oracle some 300 [] 0
          "https://github.com/a/b" 20).files,
       (fetch_with_sampling c4Oracle some 300 [] 0
          "https://github.com/a/b" 20).total,
       (fetch_with_sampling c4Oracle some 300 [] 0
          "https://github.com/a/b" 20).cache, 0, .fromCache⟩ :=
  c10_budget_not_in_cache_key c4Oracle some 300 [] 0 100
    "https://github.com/a/b" 20 5 rfl (by norm_num) (by norm_num)

/-! ## Claim C5 — branch fallback in the tree resolver -/

theorem tryFallbacks_main_wins (oracle : String → Option Jsonish)
    (fn d : String) (t0 : Jsonish) (hms : ¬("main" = d))
    (hv : (_get_repo_tree oracle fn "main").tree.isSome = true) :
    tryFallbacks oracle fn d ["main", "master"] t0 =
      (_get_repo_tree oracle fn "main", 1) := by
  simp only [tryFallbacks, if_neg hms, hv, if_true]

theorem tryFallbacks_master_wins_skipping (oracle : String → Option Jsonish)
    (fn d : String) (t0 : Jsonish) (hms : "main" = d) (hmass : ¬("master" = d))
    (hv : (_get_repo_tree oracle fn "master").tree.isSome = true) :
    tryFallbacks oracle fn d ["main", "master"] t0 =
      (_get_repo_tree oracle fn "master", 1) := by
  simp only [tryFallbacks, if_pos hms, if_neg hmass, hv, if_true]

theorem tryFallbacks_master_wins (oracle : String → Option Jsonish)
    (fn d : String) (t0 : Jsonish) (hms : ¬("main" = d))
    (hmainN : (_get_repo_tree oracle fn "main").tree.isSome = false)
    (hmass : ¬("master" = d))
    (hv : (_get_repo_tree oracle fn "master").tree.isSome = true) :
    tryFallbacks oracle fn d ["main", "master"] t0 =
      (_get_repo_tree oracle fn "master", 2) := by
  simp only [tryFallbacks, if_neg hms, if_neg hmass, hmainN, hv,
    Bool.false_eq_true, Bool.true_eq_false, if_false, if_true]

theorem tryFallbacks_all_fail_skip_main (oracle : String → Option Jsonish)
    (fn d : String) (t0 : Jsonish) (hms : "main" = d) (hmass : ¬("master" = d))
    (hv : (_get_repo_tree oracle fn "master").tree.isSome = false) :
    tryFallbacks oracle fn d ["main", "master"] t0 =
      (_get_repo_tree oracle fn "master", 1) := by
  simp only [tryFallbacks, if_pos hms, if_neg hmass, hv,
    Bool.false_eq_true, if_false]

theorem tryFallbacks_all_fail_skip_master (oracle : String → Option Jsonish)
    (fn d : String) (t0 : Jsonish) (hms : ¬("main" = d))
    (hmainN : (_get_repo_tree oracle fn "main").tree.isSome = false)
    (hmass : "master" = d) :
    tryFallbacks oracle fn d ["main", "master"] t0 =
      (_get_repo_tree oracle fn "main", 1) := by
  simp only [tryFallbacks, if_neg hms, if_pos hmass, hmainN,
    Bool.false_eq_true, if_false]

theorem tryFallbacks_all_fail (oracle : String → Option Jsonish)
    (fn d : String) (t0 : Jsonish) (hms : ¬("main" = d))
    (hmainN : (_get_repo_tree oracle fn "main").tree.isSome = false)
    (hmass : ¬("master" = d))
    (hv : (_get_repo_tree oracle fn "master").tree.isSome = false) :
    tryFallbacks oracle fn d ["main", "master"] t0 =
      (_get_repo_tree oracle fn "master", 2) := by
  simp only [tryFallbacks, if_neg hms, if_neg hmass, hmainN, hv,
    Bool.false_eq_true, if_false]

/-- C5: when the tree fetch for the resolved default branch `d` yields no
valid tree, the fixed fallbacks `main`, `master` are tried in order,
skipping any name equal to `d`:
* if `main` differs from `d` and yields a valid tree, its entries feed the
  rest of the pipeline (one extra tree request);
* if `main` fails (or is skipped) and `master` differs from `d` and yields
  a valid tree, **`master`'s entries** feed the pipeline — in particular a
  404 on the default branch followed by a 200 on `master` resolves
  successfully;
* only when the default and all fallbacks fail does the whole operation
  fail (empty result, error path, nothing cached). -/
theorem c5_branch_fallback (oracle : String → Option Jsonish)
    (dec : String → Option String) (ttl : Int) (c : List CEntry) (now : Int)
    (u : String) (B : Nat) (pr : RepoRef) (rd : Jsonish)
    (hp : parse_url u = some pr)
    (hmiss : (cache_get c ("repo:" ++ fullName pr) now).1 = none)
    (hinfo : oracle (repoInfoUrl (fullName pr)) = some rd)
    (hd : (_get_repo_tree oracle (fullName pr)
      (rd.default_branch.getD "main")).tree = none) :
    (∀ es, rd.default_branch.getD "main" ≠ "main" →
      (_get_repo_tree oracle (fullName pr) "main").tree = some es →
      fetch_with_sampling oracle dec ttl c now u B =
        fetchFromEntries oracle dec ttl
          (cache_get c ("repo:" ++ fullName pr) now).2 now (fullName pr)
          es B 3) ∧
    (∀ es, (rd.default_branch.getD "main" ≠ "main" →
        (_get_repo_tree oracle (fullName pr) "main").tree = none) →
      rd.default_branch.getD "main" ≠ "master" →
      (_get_repo_tree oracle (fullName pr) "master").tree = some es →
      fetch_with_sampling oracle dec ttl c now u B =
        fetchFromEntries oracle dec ttl
          (cache_get c ("repo:" ++ fullName pr) now).2 now (fullName pr)
          es B
          (2 + (if rd.default_branch.getD "main" = "main" then 1 else 2))) ∧
    ((rd.default_branch.getD "main" ≠ "main" →
        (_get_repo_tree oracle (fullName pr) "main").tree = none) →
      (rd.default_branch.getD "main" ≠ "master" →
        (_get_repo_tree oracle (fullName pr) "master").tree = none) →
      (fetch_with_sampling oracle dec ttl c now u B).files = [] ∧
      (fetch_with_sampling oracle dec ttl c now u B).total = 0 ∧
      (fetch_with_sampling oracle dec ttl c now u B).src = .errored ∧
      (fetch_with_sampling oracle dec ttl c now u B).cache =
        (cache_get c ("repo:" ++ fullName pr) now).2) := by
  rcases hcg : cache_get c ("repo:" ++ fullName pr) now with ⟨ov, c1⟩
  rw [hcg] at hmiss
  simp only at hmiss
  subst hmiss
  have hiss : (_get_repo_tree oracle (fullName pr)
      (rd.default_branch.getD "main")).tree.isSome = false := by
    rw [hd]; rfl
  refine ⟨?_, ?_, ?_⟩
  · -- `main` (≠ default) wins
    intro es hdm hmain
    have hms : ¬("main" = rd.default_branch.getD "main") := fun h => hdm h.symm
    have hv : (_get_repo_tree oracle (fullName pr) "main").tree.isSome = true := by
      rw [hmain]; rfl
    simp only [fetch_with_sampling, hp, hcg, hinfo, hiss, Bool.false_eq_true,
      if_false,
      tryFallbacks_main_wins oracle (fullName pr) (rd.default_branch.getD "main")
        (_get_repo_tree oracle (fullName pr) (rd.default_branch.getD "main"))
        hms hv,
      hmain]
  · -- `master` wins
    intro es hmain hdmas hmaster
    have hmass : ¬("master" = rd.default_branch.getD "main") :=
      fun h => hdmas h.symm
    have hv : (_get_repo_tree oracle (fullName pr) "master").tree.isSome = true := by
      rw [hmaster]; rfl
    by_cases hdm : rd.default_branch.getD "main" = "main"
    · simp only [fetch_with_sampling, hp, hcg, hinfo, hiss, Bool.false_eq_true,
        if_false,
        tryFallbacks_master_wins_skipping oracle (fullName pr)
          (rd.default_branch.getD "main")
          (_get_repo_tree oracle (fullName pr) (rd.default_branch.getD "main"))
          hdm.symm hmass hv,
        hmaster, if_pos hdm]
    · have hms : ¬("main" = rd.default_branch.getD "main") := fun h => hdm h.symm
      have hmaini : (_get_repo_tree oracle (fullName pr) "main").tree.isSome
          = false := by rw [hmain hdm]; rfl
      simp only [fetch_with_sampling, hp, hcg, hinfo, hiss, Bool.false_eq_true,
        if_false,
        tryFallbacks_master_wins oracle (fullName pr)
          (rd.default_branch.getD "main")
          (_get_repo_tree oracle (fullName pr) (rd.default_branch.getD "main"))
          hms hmaini hmass hv,
        hmaster, if_neg hdm]
  · -- everything fails
    intro hmain hmaster
    by_cases hdm : rd.default_branch.getD "main" = "main"
    · have hdmas : rd.default_branch.getD "main" ≠ "master" := by
        rw [hdm]; decide
      have hmass : ¬("master" = rd.default_branch.getD "main") :=
        fun h => hdmas h.symm
      have hmasterN := hmaster hdmas
      have hmi : (_get_repo_tree oracle (fullName pr) "master").tree.isSome
          = false := by rw [hmasterN]; rfl
      simp only [fetch_with_sampling, hp, hcg, hinfo, hiss, Bool.false_eq_true,
        if_false,
        tryFallbacks_all_fail_skip_main oracle (fullName pr)
          (rd.default_branch.getD "main")
          (_get_repo_tree oracle (fullName pr) (rd.default_branch.getD "main"))
          hdm.symm hmass hmi,
        hmasterN]
      simp
    · have hms : ¬("main" = rd.default_branch.getD "main") := fun h => hdm h.symm
      have hmainN := hmain hdm
      have hmaini : (_get_repo_tree oracle (fullName pr) "main").tree.isSome
          = false := by rw [hmainN]; rfl
      by_cases hdmas : rd.default_branch.getD "main" = "master"
      · simp only [fetch_with_sampling, hp, hcg, hinfo, hiss, Bool.false_eq_true,
          if_false,
          tryFallbacks_all_fail_skip_master oracle (fullName pr)
            (rd.default_branch.getD "main")
            (_get_repo_tree oracle (fullName pr) (rd.default_branch.getD "main"))
            hms hmaini hdmas.symm,
          hmainN]
        simp
      · have hmass : ¬("master" = rd.default_branch.getD "main") :=
          fun h => hdmas h.symm
        have hmasterN := hmaster hdmas
        have hmi : (_get_repo_tree oracle (fullName pr) "master").tree.isSome
            = false := by rw [hmasterN]; rfl
        simp only [fetch_with_sampling, hp, hcg, hinfo, hiss, Bool.false_eq_true,
          if_false,
          tryFallbacks_all_fail oracle (fullName pr)
            (rd.default_branch.getD "main")
            (_get_repo_tree oracle (fullName pr) (rd.default_branch.getD "main"))
            hms hmaini hmass hmi,
          hmasterN]
        simp

/-- Witness for C5: a 404 on the default branch `main`'s tree followed by a
200 on `master` resolves with `master`'s entries (skipping the `main`
fallback, which equals the default); and on a network where every tree
request fails, the whole operation fails with an empty result and an
untouched cache. -/
theorem c5_witness :
    (fetch_with_sampling c5Oracle some 300 [] 0
        "https://github.com/a/b" 20 =
      fetchFromEntries c5Oracle some 300 [] 0 "a/b"
        [⟨"x.py", "blob"⟩] 20 3) ∧
    ((fetch_with_sampling c5FailOracle some 300 [] 0
        "https://github.com/a/b" 20).files = [] ∧
     (fetch_with_sampling c5FailOracle some 300 [] 0
        "https://github.com/a/b" 20).total = 0 ∧
     (fetch_with_sampling c5FailOracle some 300 [] 0
        "https://github.com/a/b" 20).src = .errored ∧
     (fetch_with_sampling c5FailOracle some 300 [] 0
        "https://github.com/a/b" 20).cache = []) :=
  ⟨(c5_branch_fallback c5Oracle some 300 [] 0 "https://github.com/a/b" 20
      ⟨"a", "b"⟩ { default_branch := some "main" } rfl rfl rfl rfl).2.1
      [⟨"x.py", "blob"⟩] (fun h => absurd rfl h) (by decide) rfl,
   (c5_branch_fallback c5FailOracle some 300 [] 0 "https://github.com/a/b" 20
      ⟨"a", "b"⟩ { default_branch := some "main" } rfl rfl rfl rfl).2.2
      (fun h => absurd rfl h) (fun _ => rfl)⟩

/-! ## Claim C7 — silent skip of undecodable (binary) files -/

theorem string_append_left_cancel {s t u : String} (h : s ++ t = s ++ u) :
    t = u := by
  have h2 := congrArg String.data h
  simp only [String.data_append] at h2
  exact String.ext (List.append_cancel_left h2)

/-- `get` never adds entries. -/
theorem mem_cache_get_snd (c : List CEntry) (k : String) (now : Int) :
    ∀ e ∈ (cache_get c k now).2, e ∈ c := by
  unfold cache_get
  rcases hf : c.find? (fun e => e.key == k) with _ | e'
  · simp only [hf]
    exact fun e he => he
  · simp only [hf]
    by_cases ht : now < e'.expiry
    · rw [if_pos ht]
      exact fun e he => he
    · rw [if_neg ht]
      exact fun e he => (List.mem_filter.mp he).1

/-- Every key present after a `set` is either the written key or was
already present. -/
theorem mem_cache_set (mx : Nat) (c : List CEntry) (k : String)
    (v : CacheVal) (ttl now : Int) :
    ∀ e ∈ cache_set mx c k v ttl now,
      e.key = k ∨ ∃ e' ∈ c, e.key = e'.key := by
  unfold cache_set
  have htail : ∀ e ∈ (if mx ≤ c.length then c.tail else c), e ∈ c := by
    by_cases hl : mx ≤ c.length
    · rw [if_pos hl]
      exact fun e he => List.mem_of_mem_tail he
    · rw [if_neg hl]
      exact fun e he => he
  set c1 := if mx ≤ c.length then c.tail else c with hc1
  by_cases hany : c1.any (fun e => e.key == k) = true
  · rw [if_pos hany]
    intro e he
    obtain ⟨a, ha, hae⟩ := List.mem_map.mp he
    by_cases hak : a.key = k
    · rw [if_pos (by simpa using hak)] at hae
      exact Or.inl (by rw [← hae])
    · rw [if_neg (by simpa using hak)] at hae
      exact Or.inr ⟨a, htail a ha, by rw [← hae]⟩
  · rw [if_neg hany]
    intro e he
    rcases List.mem_append.mp he with he | he
    · exact Or.inr ⟨e, htail e he, rfl⟩
    · exact Or.inl (by rw [List.mem_singleton.mp he])

/-- Every key present after one `_fetch_single_file` call is either that
file's own `file:` key or was already present. -/
theorem mem_fetch_single_cache (oracle : String → Option Jsonish)
    (dec : String → Option String) (ttl : Int) (c : List CEntry) (now : Int)
    (fn p : String) :
    ∀ e ∈ (_fetch_single_file oracle dec ttl c now fn p).2.1,
      e.key = "file:" ++ fn ++ ":" ++ p ∨ ∃ e' ∈ c, e.key = e'.key := by
  have hfresh : ∀ (c1 : List CEntry), (∀ e ∈ c1, e ∈ c) →
      ∀ e ∈ (_fetch_single_fresh oracle dec ttl c1 now fn p).2.1,
        e.key = "file:" ++ fn ++ ":" ++ p ∨ ∃ e' ∈ c, e.key = e'.key := by
    intro c1 hsub e he
    unfold _fetch_single_fresh at he
    rcases hdata : oracle (contentsUrl fn p) with _ | data
    · simp only [hdata] at he
      exact Or.inr ⟨e, hsub e he, rfl⟩
    · simp only [hdata] at he
      by_cases hcond : ((data.content.getD "") ≠ "" &&
          data.encoding == some "base64") = true
      · rw [if_pos hcond] at he
        rcases hdec : dec (data.content.getD "") with _ | content
        · simp only [hdec] at he
          exact Or.inr ⟨e, hsub e he, rfl⟩
        · simp only [hdec] at he
          rcases mem_cache_set 100 c1 ("file:" ++ fn ++ ":" ++ p)
              (.fileVal content) ttl now e he with h | ⟨e', he', hk⟩
          · exact Or.inl h
          · exact Or.inr ⟨e', hsub e' he', hk⟩
      · rw [if_neg hcond] at he
        exact Or.inr ⟨e, hsub e he, rfl⟩
  intro e he
  unfold _fetch_single_file at he
  rcases hcg : cache_get c ("file:" ++ fn ++ ":" ++ p) now with ⟨ov, c1⟩
  have hc1 : ∀ e ∈ c1, e ∈ c := by
    have := mem_cache_get_snd c ("file:" ++ fn ++ ":" ++ p) now
    rw [hcg] at this
    exact this
  simp only [hcg] at he
  rcases ov with _ | val
  · dsimp only at he
    exact hfresh c1 hc1 e he
  · cases val with
    | repoVal fs tot =>
      dsimp only at he
      exact Or.inr ⟨e, hc1 e he, rfl⟩
    | fileVal s =>
      dsimp only at he
      by_cases hs : s ≠ ""
      · rw [if_pos hs] at he
        exact Or.inr ⟨e, hc1 e he, rfl⟩
      · rw [if_neg hs] at he
        exact hfresh c1 hc1 e he

/-- Processing an entry whose key is absent from the cache and whose content
decodes to nothing (binary) returns `None`, leaves the cache untouched and
issues one request. -/
theorem fetch_single_binary_skips (oracle : String → Option Jsonish)
    (dec : String → Option String) (ttl : Int) (c : List CEntry) (now : Int)
    (fn : String) (e : Entry) (de : Jsonish)
    (hnokey : ∀ en ∈ c, en.key ≠ "file:" ++ fn ++ ":" ++ e.path)
    (hdata : oracle (contentsUrl fn e.path) = some de)
    (hcontent : (de.content.getD "") ≠ "")
    (henc : de.encoding = some "base64")
    (hdec : dec (de.content.getD "") = none) :
    _fetch_single_file oracle dec ttl c now fn e.path = (none, c, 1) := by
  have hfind : c.find? (fun en => en.key == ("file:" ++ fn ++ ":" ++ e.path))
      = none := by
    rw [List.find?_eq_none]
    intro en hen
    simpa using hnokey en hen
  have hcg : cache_get c ("file:" ++ fn ++ ":" ++ e.path) now = (none, c) := by
    unfold cache_get
    rw [hfind]
  unfold _fetch_single_file
  simp only [hcg]
  unfold _fetch_single_fresh
  simp only [hdata]
  rw [if_pos (by simp [hcontent, henc])]
  simp only [hdec]

/-- The result map only ever holds paths of the processed batch. -/
theorem fetch_contents_paths (oracle : String → Option Jsonish)
    (dec : String → Option String) (ttl : Int) (now : Int) (fn : String) :
    ∀ (l : List Entry) (c : List CEntry),
      ∀ p ∈ ((_fetch_file_contents oracle dec ttl c now fn l).1).map
        Prod.fst, ∃ f ∈ l, f.path = p := by
  intro l
  induction l with
  | nil => intro c p hp; simp [_fetch_file_contents] at hp
  | cons f rest ih =>
    intro c p hp
    rw [_fetch_file_contents] at hp
    rcases hfs : _fetch_single_file oracle dec ttl c now fn f.path
      with ⟨r, c1, q1⟩
    simp only [hfs] at hp
    rcases hrest : _fetch_file_contents oracle dec ttl c1 now fn rest
      with ⟨rs, c2, q2⟩
    simp only [hrest] at hp
    have hih := ih c1
    rw [hrest] at hih
    rcases r with _ | content
    · dsimp only at hp
      obtain ⟨g, hg, hgp⟩ := hih p hp
      exact ⟨g, List.mem_cons_of_mem f hg, hgp⟩
    · dsimp only at hp
      by_cases hc : content ≠ ""
      · rw [if_pos hc] at hp
        simp only [List.map_cons, List.mem_cons] at hp
        rcases hp with hp | hp
        · exact ⟨f, List.mem_cons_self f rest, hp.symm⟩
        · obtain ⟨g, hg, hgp⟩ := hih p hp
          exact ⟨g, List.mem_cons_of_mem f hg, hgp⟩
      · rw [if_neg hc] at hp
        obtain ⟨g, hg, hgp⟩ := hih p hp
        exact ⟨g, List.mem_cons_of_mem f hg, hgp⟩

/-- C7: an entry `e` of a batch whose fetched base64 content fails text
decoding is silently omitted: the batch around it produces exactly the same
record list, final cache and request count (plus `e`'s one request) as the
batch without `e`, and — when no other entry shares `e`'s path — no record
for `e.path` appears at all.  No error value exists anywhere: the embedding
of `_fetch_file_contents` is total. -/
theorem c7_decode_failure_skipped (oracle : String → Option Jsonish)
    (dec : String → Option String) (ttl : Int) (c : List CEntry) (now : Int)
    (fn : String) (l1 l2 : List Entry) (e : Entry) (de : Jsonish)
    (hnokey : ∀ en ∈ c, en.key ≠ "file:" ++ fn ++ ":" ++ e.path)
    (hl1 : ∀ f ∈ l1, f.path ≠ e.path)
    (hl2 : ∀ f ∈ l2, f.path ≠ e.path)
    (hdata : oracle (contentsUrl fn e.path) = some de)
    (hcontent : (de.content.getD "") ≠ "")
    (henc : de.encoding = some "base64")
    (hdec : dec (de.content.getD "") = none) :
    (_fetch_file_contents oracle dec ttl c now fn (l1 ++ e :: l2)).1 =
      (_fetch_file_contents oracle dec ttl c now fn (l1 ++ l2)).1 ∧
    (_fetch_file_contents oracle dec ttl c now fn (l1 ++ e :: l2)).2.1 =
      (_fetch_file_contents oracle dec ttl c now fn (l1 ++ l2)).2.1 ∧
    (_fetch_file_contents oracle dec ttl c now fn (l1 ++ e :: l2)).2.2 =
      (_fetch_file_contents oracle dec ttl c now fn (l1 ++ l2)).2.2 + 1 ∧
    e.path ∉ ((_fetch_file_contents oracle dec ttl c now fn
      (l1 ++ e :: l2)).1).map Prod.fst := by
  have main : ∀ (l1 : List Entry) (c : List CEntry),
      (∀ en ∈ c, en.key ≠ "file:" ++ fn ++ ":" ++ e.path) →
      (∀ f ∈ l1, f.path ≠ e.path) →
      (_fetch_file_contents oracle dec ttl c now fn (l1 ++ e :: l2)).1 =
        (_fetch_file_contents oracle dec ttl c now fn (l1 ++ l2)).1 ∧
      (_fetch_file_contents oracle dec ttl c now fn (l1 ++ e :: l2)).2.1 =
        (_fetch_file_contents oracle dec ttl c now fn (l1 ++ l2)).2.1 ∧
      (_fetch_file_contents oracle dec ttl c now fn (l1 ++ e :: l2)).2.2 =
        (_fetch_file_contents oracle dec ttl c now fn (l1 ++ l2)).2.2 + 1 := by
    intro l1
    induction l1 with
    | nil =>
      intro c hn _
      simp only [List.nil_append]
      rw [_fetch_file_contents]
      simp only [fetch_single_binary_skips oracle dec ttl c now fn e de hn
        hdata hcontent henc hdec]
      rcases hrest : _fetch_file_contents oracle dec ttl c now fn l2
        with ⟨rs, c2, q2⟩
      simp only [hrest]
      exact ⟨by simp, by simp, by omega⟩
    | cons f rest ih =>
      intro c hn hp
      simp only [List.cons_append]
      rw [_fetch_file_contents, _fetch_file_contents]
      rcases hfs : _fetch_single_file oracle dec ttl c now fn f.path
        with ⟨r, c1, q1⟩
      simp only [hfs]
      have hn1 : ∀ en ∈ c1, en.key ≠ "file:" ++ fn ++ ":" ++ e.path := by
        intro en hen
        have := mem_fetch_single_cache oracle dec ttl c now fn f.path en
          (by rw [hfs]; exact hen)
        rcases this with h | ⟨e', he', hk⟩
        · rw [h]
          intro hkey
          have : f.path = e.path := by
            have h1 : ("file:" ++ fn ++ ":") ++ f.path =
                ("file:" ++ fn ++ ":") ++ e.path := by
              simpa [String.append_assoc] using hkey
            exact string_append_left_cancel h1
          exact hp f (List.mem_cons_self f rest) this
        · rw [hk]
          exact hn e' he'
      have hih := ih c1 hn1 (fun g hg => hp g (List.mem_cons_of_mem f hg))
      rcases h1 : _fetch_file_contents oracle dec ttl c1 now fn
        (rest ++ e :: l2) with ⟨rs1, cA, qA⟩
      rcases h2 : _fetch_file_contents oracle dec ttl c1 now fn
        (rest ++ l2) with ⟨rs2, cB, qB⟩
      simp only [h1, h2]
      rw [h1, h2] at hih
      simp only at hih
      obtain ⟨hEq1, hEq2, hEq3⟩ := hih
      subst hEq1
      subst hEq2
      rcases r with _ | content
      · dsimp only
        exact ⟨by simp, by simp, by omega⟩
      · dsimp only
        by_cases hc : content ≠ ""
        · rw [if_pos hc, if_pos hc]
          exact ⟨by simp, by simp, by dsimp only; omega⟩
        · rw [if_neg hc, if_neg hc]
          exact ⟨by simp, by simp, by dsimp only; omega⟩
  obtain ⟨h1, h2, h3⟩ := main l1 c hnokey hl1
  refine ⟨h1, h2, h3, ?_⟩
  intro hmem
  obtain ⟨g, hg, hgp⟩ := fetch_contents_paths oracle dec ttl now fn
    (l1 ++ e :: l2) c e.path hmem
  rw [h1] at hmem
  obtain ⟨g', hg', hgp'⟩ := fetch_contents_paths oracle dec ttl now fn
    (l1 ++ l2) c e.path hmem
  rcases List.mem_append.mp hg' with h | h
  · exact hl1 g' h hgp'
  · exact hl2 g' h hgp'

/-- Witness for C7: the spec's example — a batch of ten files of which
exactly one (`bin.py`) is binary yields the same records as the nine-file
batch, contains no record for `bin.py`, and has exactly nine entries. -/
theorem c7_witness :
    ((_fetch_file_contents c7Oracle c7Dec 300 [] 0 "a/b"
        (c7L1 ++ (⟨"bin.py", "blob"⟩ : Entry) :: c7L2)).1 =
      (_fetch_file_contents c7Oracle c7Dec 300 [] 0 "a/b"
        (c7L1 ++ c7L2)).1) ∧
    "bin.py" ∉ ((_fetch_file_contents c7Oracle c7Dec 300 [] 0 "a/b"
        (c7L1 ++ (⟨"bin.py", "blob"⟩ : Entry) :: c7L2)).1).map Prod.fst ∧
    ((_fetch_file_contents c7Oracle c7Dec 300 [] 0 "a/b"
        (c7L1 ++ (⟨"bin.py", "blob"⟩ : Entry) :: c7L2)).1).length = 9 :=
  have h := c7_decode_failure_skipped c7Oracle c7Dec 300 [] 0 "a/b" c7L1 c7L2
    ⟨"bin.py", "blob"⟩ { content := some "bin.py", encoding := some "base64" }
    (by simp) (by decide) (by decide) rfl (by decide) rfl rfl
  ⟨h.1, h.2.2.2, by rw [h.1]; rfl⟩

/-! ## Claim C2 — the stratified sampler's invariants -/

theorem mem_groupOf {files : List Entry} {e : String} {f : Entry} :
    f ∈ groupOf files e ↔ f ∈ files ∧ extOfEntry f = e := by
  simp [groupOf, List.mem_filter]

theorem groupOf_sublist (files : List Entry) (e : String) :
    List.Sublist (groupOf files e) files :=
  List.filter_sublist files

theorem mem_firstSeenAux {x : String} :
    ∀ (l seen : List String),
      x ∈ firstSeenAux seen l ↔ x ∈ l ∧ x ∉ seen := by
  intro l
  induction l with
  | nil => intro seen; simp [firstSeenAux]
  | cons y ys ih =>
    intro seen
    rw [firstSeenAux]
    by_cases hy : y ∈ seen
    · rw [if_pos hy, ih]
      constructor
      · rintro ⟨h1, h2⟩
        exact ⟨List.mem_cons_of_mem y h1, h2⟩
      · rintro ⟨h1, h2⟩
        rcases List.mem_cons.mp h1 with h | h
        · exact absurd (h ▸ hy) h2
        · exact ⟨h, h2⟩
    · rw [if_neg hy]
      constructor
      · intro h
        rcases List.mem_cons.mp h with h | h
        · exact ⟨h ▸ List.mem_cons_self y ys, h ▸ hy⟩
        · obtain ⟨h1, h2⟩ := (ih (y :: seen)).mp h
          exact ⟨List.mem_cons_of_mem y h1,
            fun hc => h2 (List.mem_cons_of_mem y hc)⟩
      · rintro ⟨h1, h2⟩
        rcases List.mem_cons.mp h1 with h | h
        · exact h ▸ List.mem_cons_self _ _
        · by_cases hxy : x = y
          · exact hxy ▸ List.mem_cons_self _ _
          · exact List.mem_cons_of_mem _ ((ih (y :: seen)).mpr
              ⟨h, fun hc => (List.mem_cons.mp hc).elim hxy h2⟩)

theorem nodup_firstSeenAux :
    ∀ (l seen : List String), (firstSeenAux seen l).Nodup := by
  intro l
  induction l with
  | nil => intro seen; simp [firstSeenAux]
  | cons y ys ih =>
    intro seen
    rw [firstSeenAux]
    by_cases hy : y ∈ seen
    · rw [if_pos hy]; exact ih seen
    · rw [if_neg hy]
      refine List.nodup_cons.mpr ⟨?_, ih (y :: seen)⟩
      intro hc
      exact ((mem_firstSeenAux ys (y :: seen)).mp hc).2
        (List.mem_cons_self y seen)

theorem mem_extensionsOf {files : List Entry} {e : String} :
    e ∈ extensionsOf files ↔ ∃ f ∈ files, extOfEntry f = e := by
  unfold extensionsOf
  rw [mem_firstSeenAux]
  simp [List.mem_map, eq_comm]

theorem nodup_extensionsOf (files : List Entry) :
    (extensionsOf files).Nodup :=
  nodup_firstSeenAux _ []

/-- On a path-deduplicated entry list, entries are determined by their
path. -/
theorem path_inj {files : List Entry}
    (hnd : (files.map Entry.path).Nodup) :
    ∀ f ∈ files, ∀ g ∈ files, f.path = g.path → f = g :=
  List.inj_on_of_nodup_map hnd

theorem paths_nodup_of_sublist {files l : List Entry}
    (hnd : (files.map Entry.path).Nodup) (h : List.Sublist l files) :
    (l.map Entry.path).Nodup :=
  hnd.sublist (h.map Entry.path)

theorem firstPass_mem {files : List Entry} {per : Nat} :
    ∀ (es : List String) (f : Entry), f ∈ firstPass files per es →
      ∃ e ∈ es, f ∈ groupOf files e := by
  intro es
  induction es with
  | nil => intro f hf; simp [firstPass] at hf
  | cons e rest ih =>
    intro f hf
    rw [firstPass] at hf
    rcases List.mem_append.mp hf with hf | hf
    · exact ⟨e, List.mem_cons_self e rest, List.mem_of_mem_take hf⟩
    · obtain ⟨e', he', hf'⟩ := ih f hf
      exact ⟨e', List.mem_cons_of_mem e he', hf'⟩

theorem firstPass_subset {files : List Entry} {per : Nat}
    {es : List String} {f : Entry} (hf : f ∈ firstPass files per es) :
    f ∈ files := by
  obtain ⟨e, _, hg⟩ := firstPass_mem es f hf
  exact (mem_groupOf.mp hg).1

theorem firstPass_length_le (files : List Entry) (per : Nat) :
    ∀ (es : List String), (firstPass files per es).length ≤ es.length * per := by
  intro es
  induction es with
  | nil => simp [firstPass]
  | cons e rest ih =>
    rw [firstPass]
    rw [List.length_append, List.length_take]
    have h1 : min (min per (groupOf files e).length) (groupOf files e).length
        ≤ per := le_trans (min_le_left _ _) (min_le_left _ _)
    calc min (min per (groupOf files e).length) (groupOf files e).length +
          (firstPass files per rest).length
        ≤ per + rest.length * per := Nat.add_le_add h1 ih
      _ = (rest.length + 1) * per := by ring
      _ = (e :: rest).length * per := by simp

theorem firstPass_nodup_paths {files : List Entry} {per : Nat}
    (hnd : (files.map Entry.path).Nodup) :
    ∀ (es : List String), es.Nodup →
      ((firstPass files per es).map Entry.path).Nodup := by
  intro es
  induction es with
  | nil => intro _; simp [firstPass]
  | cons e rest ih =>
    intro hes
    obtain ⟨he, hrest⟩ := List.nodup_cons.mp hes
    rw [firstPass, List.map_append]
    rw [List.nodup_append]
    refine ⟨paths_nodup_of_sublist hnd
      ((List.take_sublist _ _).trans (groupOf_sublist files e)), ih hrest, ?_⟩
    intro p hp hq
    obtain ⟨f, hf, hfp⟩ := List.mem_map.mp hp
    obtain ⟨g, hg, hgp⟩ := List.mem_map.mp hq
    have hfe : extOfEntry f = e :=
      (mem_groupOf.mp (List.mem_of_mem_take hf)).2
    obtain ⟨e', he', hge⟩ := firstPass_mem rest g hg
    have hfg : f = g := path_inj hnd f
      (mem_groupOf.mp (List.mem_of_mem_take hf)).1 g
      (mem_groupOf.mp hge).1 (hfp.trans hgp.symm)
    have : e = e' := by
      rw [← hfe, hfg]
      exact (mem_groupOf.mp hge).2
    exact he (this ▸ he')

theorem firstPass_covers {files : List Entry} {per : Nat} (hper : 1 ≤ per) :
    ∀ (es : List String), ∀ e ∈ es, groupOf files e ≠ [] →
      ∃ f ∈ firstPass files per es, extOfEntry f = e := by
  intro es
  induction es with
  | nil => intro e he; exact absurd he (List.not_mem_nil e)
  | cons e' rest ih =>
    intro e he hne
    rcases List.mem_cons.mp he with he | he
    · subst he
      rcases hg : groupOf files e with _ | ⟨f, fs⟩
      · exact absurd hg hne
      · refine ⟨f, ?_, (mem_groupOf.mp (hg ▸ List.mem_cons_self f fs)).2⟩
        rw [firstPass]
        apply List.mem_append_left
        rw [hg]
        have hmin : 1 ≤ min per (f :: fs).length := le_min hper (by simp)
        rcases hm : min per (f :: fs).length with _ | n
        · omega
        · rw [List.take_succ_cons]
          exact List.mem_cons_self f _
    · obtain ⟨f, hf, hfe⟩ := ih e he hne
      exact ⟨f, by rw [firstPass]; exact List.mem_append_right _ hf, hfe⟩

theorem mem_insertDesc {files : List Entry} {x y : String} :
    ∀ (l : List String), x ∈ insertDesc files y l ↔ x = y ∨ x ∈ l := by
  intro l
  induction l with
  | nil => simp [insertDesc]
  | cons z zs ih =>
    rw [insertDesc]
    by_cases hc : (groupOf files y).length ≤ (groupOf files z).length
    · rw [if_pos hc]
      simp only [List.mem_cons, ih]
      tauto
    · rw [if_neg hc]
      simp only [List.mem_cons]

theorem mem_sortByCountDesc {files : List Entry} {x : String}
    (l : List String) : x ∈ sortByCountDesc files l ↔ x ∈ l := by
  unfold sortByCountDesc
  suffices h : ∀ (l acc : List String),
      x ∈ l.foldl (fun acc x => insertDesc files x acc) acc ↔
        x ∈ acc ∨ x ∈ l by
    rw [h l []]
    simp
  intro l
  induction l with
  | nil => intro acc; simp
  | cons y ys ih =>
    intro acc
    rw [List.foldl_cons, ih]
    rw [mem_insertDesc]
    simp only [List.mem_cons]
    tauto

theorem secondPass_zero (files : List Entry) :
    ∀ (es : List String) (s : List Entry),
      secondPass files es s 0 = (s, 0) := by
  intro es s
  cases es with
  | nil => rfl
  | cons e rest => rw [secondPass, if_pos rfl]

/-- The full invariant of the second sampling pass: the sampled list only
grows, stays inside `files` with pairwise-distinct paths, the slot
accounting `length + remaining` is preserved, and on exit either every slot
was filled (`remaining = 0`) or every group of the processed extensions has
been exhausted into the sample. -/
theorem secondPass_spec (files : List Entry)
    (hnd : (files.map Entry.path).Nodup) :
    ∀ (es : List String) (sampled : List Entry) (remaining : Nat),
      (∀ f ∈ sampled, f ∈ files) →
      ((sampled.map Entry.path).Nodup) →
      (∃ t, (secondPass files es sampled remaining).1 = sampled ++ t) ∧
      (∀ f ∈ (secondPass files es sampled remaining).1, f ∈ files) ∧
      (((secondPass files es sampled remaining).1.map Entry.path).Nodup) ∧
      ((secondPass files es sampled remaining).1.length +
        (secondPass files es sampled remaining).2 =
        sampled.length + remaining) ∧
      ((secondPass files es sampled remaining).2 = 0 ∨
        ∀ e ∈ es, ∀ f ∈ groupOf files e,
          f ∈ (secondPass files es sampled remaining).1) := by
  intro es
  induction es with
  | nil =>
    intro sampled remaining hsub hnds
    refine ⟨⟨[], by simp [secondPass]⟩, ?_, ?_, ?_, ?_⟩
    · simpa [secondPass] using hsub
    · simpa [secondPass] using hnds
    · simp [secondPass]
    · exact Or.inr (fun e he => absurd he (List.not_mem_nil e))
  | cons ext rest ih =>
    intro sampled remaining hsub hnds
    by_cases hr : remaining = 0
    · subst hr
      rw [secondPass, if_pos rfl]
      exact ⟨⟨[], by simp⟩, hsub, hnds, rfl, Or.inl rfl⟩
    · rw [secondPass, if_neg hr]
      by_cases hemp : ((groupOf files ext).filter
          (fun f => decide (f ∉ sampled))).isEmpty = true
      · rw [if_pos hemp]
        obtain ⟨⟨t, hpre⟩, hsub', hnds', hlen', hlast'⟩ :=
          ih sampled remaining hsub hnds
        refine ⟨⟨t, hpre⟩, hsub', hnds', hlen', ?_⟩
        rcases hlast' with h0 | hcov
        · exact Or.inl h0
        · refine Or.inr ?_
          intro e he f hf
          rcases List.mem_cons.mp he with he | he
          · -- `current` empty: the whole group is already sampled
            have hfin : f ∈ sampled := by
              have := List.filter_eq_nil_iff.mp (List.isEmpty_iff.mp hemp)
              have hni := this f (he ▸ hf)
              simpa using hni
            rw [hpre]
            exact List.mem_append_left t hfin
          · exact hcov e he f hf
      · rw [if_neg hemp]
        set current := (groupOf files ext).filter
          (fun f => decide (f ∉ sampled)) with hcur
        set tk := min remaining current.length with htk
        have hcursub : ∀ f ∈ current, f ∈ files ∧ f ∉ sampled := by
          intro f hf
          rw [hcur] at hf
          obtain ⟨hf1, hf2⟩ := List.mem_filter.mp hf
          exact ⟨(mem_groupOf.mp hf1).1, by simpa using hf2⟩
        have hsub2 : ∀ f ∈ sampled ++ current.take tk, f ∈ files := by
          intro f hf
          rcases List.mem_append.mp hf with hf | hf
          · exact hsub f hf
          · exact (hcursub f (List.mem_of_mem_take hf)).1
        have hnds2 : ((sampled ++ current.take tk).map Entry.path).Nodup := by
          rw [List.map_append, List.nodup_append]
          refine ⟨hnds, ?_, ?_⟩
          · exact paths_nodup_of_sublist hnd
              (((List.take_sublist _ _).trans
                (List.filter_sublist _)).trans (groupOf_sublist files ext))
          · intro p hp hq
            obtain ⟨f, hf, hfp⟩ := List.mem_map.mp hp
            obtain ⟨g, hg, hgp⟩ := List.mem_map.mp hq
            have hgc := hcursub g (List.mem_of_mem_take hg)
            have : f = g := path_inj hnd f (hsub f hf) g hgc.1
              (hfp.trans hgp.symm)
            exact hgc.2 (this ▸ hf)
        obtain ⟨⟨t, hpre⟩, hsub', hnds', hlen', hlast'⟩ :=
          ih (sampled ++ current.take tk) (remaining - tk) hsub2 hnds2
        have htkle : tk ≤ remaining := min_le_left _ _
        refine ⟨⟨current.take tk ++ t, by rw [hpre, List.append_assoc]⟩,
          hsub', hnds', ?_, ?_⟩
        · rw [hlen']
          rw [List.length_append, List.length_take]
          omega
        · by_cases hr' : (secondPass files rest (sampled ++ current.take tk)
              (remaining - tk)).2 = 0
          · exact Or.inl hr'
          · have hcov := hlast'.resolve_left hr'
            refine Or.inr ?_
            intro e he f hf
            rcases List.mem_cons.mp he with he | he
            · -- since the recursion still had remaining slots, `tk` covered
              -- all of `current`
              have htkfull : tk = current.length := by
                by_contra hne
                have h1 : tk = remaining := by
                  rw [htk] at hne ⊢
                  omega
                have hz : remaining - tk = 0 := by omega
                rw [hz, secondPass_zero] at hr'
                exact hr' rfl
              subst he
              by_cases hfs : f ∈ sampled
              · rw [hpre]
                exact List.mem_append_left _ (List.mem_append_left _ hfs)
              · have hfc : f ∈ current := by
                  rw [hcur]
                  exact List.mem_filter.mpr ⟨hf, by simpa using hfs⟩
                have : f ∈ current.take tk := by
                  rw [htkfull, List.take_length]
                  exact hfc
                rw [hpre]
                exact List.mem_append_left _ (List.mem_append_right _ this)
            · exact hcov e he f hf

/-- A path-deduplicated selection out of `files` cannot be longer than
`files`. -/
theorem subset_nodup_length_le {l files : List Entry}
    (hndl : (l.map Entry.path).Nodup) (hsub : ∀ f ∈ l, f ∈ files) :
    l.length ≤ files.length := by
  have hs : (l.map Entry.path) ⊆ (files.map Entry.path) := by
    intro p hp
    obtain ⟨f, hf, hfp⟩ := List.mem_map.mp hp
    exact List.mem_map.mpr ⟨f, hsub f hf, hfp⟩
  have := (List.subperm_of_subset hndl hs).length_le
  simpa using this

/-- C2, amended: on any filtered-entry list with pairwise-distinct paths
(as a Git tree listing always has) and any budget at least the number of
distinct (lower-cased) extensions, `_smart_sample` returns exactly
`min B |files|` entries, no two returned entries share a path, and every
extension present contributes at least one entry. -/
theorem c2_sampler_invariants (files : List Entry) (B : Nat)
    (hnd : (files.map Entry.path).Nodup)
    (hBE : (extensionsOf files).length ≤ B) :
    (_smart_sample files B).length = min B files.length ∧
    ((_smart_sample files B).map Entry.path).Nodup ∧
    ∀ e ∈ files.map extOfEntry, ∃ f ∈ _smart_sample files B,
      extOfEntry f = e := by
  by_cases hef : files.isEmpty = true
  · have h0 : files = [] := by
      cases files
      · rfl
      · simp at hef
    subst h0
    exact ⟨by simp [_smart_sample], by simp [_smart_sample], by simp⟩
  · have hef' : files.isEmpty = false := by simpa using hef
    have hexlen : 1 ≤ (extensionsOf files).length := by
      rcases hfe : files with _ | ⟨f, fs⟩
      · rw [hfe] at hef'; simp at hef'
      · have hm : extOfEntry f ∈ extensionsOf (f :: fs) :=
          mem_extensionsOf.mpr ⟨f, List.mem_cons_self f fs, rfl⟩
        rcases hx : extensionsOf (f :: fs) with _ | ⟨e, es⟩
        · rw [hx] at hm; exact absurd hm (List.not_mem_nil _)
        · simp
    have hper1 : 1 ≤ max 1 (B / (extensionsOf files).length) := le_max_left 1 _
    have hperval : max 1 (B / (extensionsOf files).length) =
        B / (extensionsOf files).length :=
      max_eq_right ((Nat.one_le_div_iff hexlen).mpr hBE)
    have hfpB : (firstPass files (max 1 (B / (extensionsOf files).length))
        (extensionsOf files)).length ≤ B := by
      calc (firstPass files (max 1 (B / (extensionsOf files).length))
            (extensionsOf files)).length
          ≤ (extensionsOf files).length *
              (max 1 (B / (extensionsOf files).length)) :=
            firstPass_length_le files _ (extensionsOf files)
        _ = (extensionsOf files).length * (B / (extensionsOf files).length) :=
            by rw [hperval]
        _ ≤ B := by
            rw [mul_comm]
            exact Nat.div_mul_le_self B (extensionsOf files).length
    have hfpnd : ((firstPass files (max 1 (B / (extensionsOf files).length))
        (extensionsOf files)).map Entry.path).Nodup :=
      firstPass_nodup_paths hnd (extensionsOf files) (nodup_extensionsOf files)
    have hfpsub : ∀ f ∈ firstPass files
        (max 1 (B / (extensionsOf files).length)) (extensionsOf files),
        f ∈ files := fun f hf => firstPass_subset hf
    have hcovfp : ∀ e ∈ extensionsOf files,
        ∃ f ∈ firstPass files (max 1 (B / (extensionsOf files).length))
          (extensionsOf files), extOfEntry f = e := by
      intro e he
      apply firstPass_covers hper1 (extensionsOf files) e he
      obtain ⟨f, hf, hfe⟩ := mem_extensionsOf.mp he
      intro hcon
      have : f ∈ groupOf files e := mem_groupOf.mpr ⟨hf, hfe⟩
      rw [hcon] at this
      exact absurd this (List.not_mem_nil f)
    have hmemE : ∀ e, e ∈ files.map extOfEntry ↔ e ∈ extensionsOf files := by
      intro e
      rw [mem_extensionsOf, List.mem_map]
    simp only [_smart_sample, hef', Bool.false_eq_true, if_false]
    by_cases hlt : (firstPass files (max 1 (B / (extensionsOf files).length))
        (extensionsOf files)).length < B
    · rw [if_pos hlt]
      obtain ⟨⟨t, hpre⟩, hsub', hnds', hlen', hlast'⟩ :=
        secondPass_spec files hnd (sortByCountDesc files (extensionsOf files))
          (firstPass files (max 1 (B / (extensionsOf files).length))
            (extensionsOf files))
          (B - (firstPass files (max 1 (B / (extensionsOf files).length))
            (extensionsOf files)).length) hfpsub hfpnd
      rcases hsp : secondPass files (sortByCountDesc files (extensionsOf files))
          (firstPass files (max 1 (B / (extensionsOf files).length))
            (extensionsOf files))
          (B - (firstPass files (max 1 (B / (extensionsOf files).length))
            (extensionsOf files)).length) with ⟨s', r'⟩
      rw [hsp] at hpre hlen' hlast'
      simp only at hpre hlen' hlast'
      simp only [hsp] at hsub' hnds' ⊢
      have hslen : s'.length + r' = B := by omega
      have htake : s'.take B = s' := List.take_of_length_le (by omega)
      rw [htake]
      refine ⟨?_, hnds', ?_⟩
      · by_cases hr0 : r' = 0
        · have hlenB : s'.length = B := by omega
          have hBn : B ≤ files.length := by
            have := subset_nodup_length_le hnds' hsub'
            omega
          rw [hlenB, min_eq_left hBn]
        · have hcov := hlast'.resolve_left hr0
          have hfsub2 : ∀ f ∈ files, f ∈ s' := by
            intro f hf
            apply hcov (extOfEntry f) _ f (mem_groupOf.mpr ⟨hf, rfl⟩)
            rw [mem_sortByCountDesc]
            exact mem_extensionsOf.mpr ⟨f, hf, rfl⟩
          have hles : files.length ≤ s'.length :=
            subset_nodup_length_le hnd hfsub2
          have hges : s'.length ≤ files.length :=
            subset_nodup_length_le hnds' hsub'
          have hn : s'.length = files.length := le_antisymm hges hles
          rw [hn, min_eq_right (by omega)]
      · intro e he
        obtain ⟨f, hf, hfe⟩ := hcovfp e ((hmemE e).mp he)
        exact ⟨f, by rw [hpre]; exact List.mem_append_left t hf, hfe⟩
    · rw [if_neg hlt]
      have hfpeq : (firstPass files (max 1 (B / (extensionsOf files).length))
          (extensionsOf files)).length = B :=
        le_antisymm hfpB (not_lt.mp hlt)
      rw [List.take_of_length_le (le_of_eq hfpeq)]
      refine ⟨?_, hfpnd, ?_⟩
      · have hBn : B ≤ files.length := by
          have := subset_nodup_length_le hfpnd hfpsub
          omega
        rw [hfpeq, min_eq_left hBn]
      · intro e he
        exact hcovfp e ((hmemE e).mp he)

/-- C2, counterexample: on an input list containing two entries with the
same path, the first pass takes both copies (`by_extension[ext][:take]`
never deduplicates), so the returned entries share a path even though
`B ≥ E` — the claim as stated over *every* list of filtered entries is
false; it needs the distinct-paths precondition. -/
theorem c2_counterexample :
    (extensionsOf [⟨"a.py", "blob"⟩, ⟨"a.py", "blob"⟩]).length ≤ 2 ∧
    ¬ (((_smart_sample [⟨"a.py", "blob"⟩, ⟨"a.py", "blob"⟩] 2).map
        Entry.path).Nodup) := by
  decide

/-- Witness for C2 (amended): three distinct files over two extensions,
budget 2. -/
theorem c2_witness :
    (_smart_sample [⟨"a.py", "blob"⟩, ⟨"b.js", "blob"⟩,
      ⟨"c.py", "blob"⟩] 2).length =
      min 2 ([⟨"a.py", "blob"⟩, ⟨"b.js", "blob"⟩,
        (⟨"c.py", "blob"⟩ : Entry)].length) ∧
    ((_smart_sample [⟨"a.py", "blob"⟩, ⟨"b.js", "blob"⟩,
      ⟨"c.py", "blob"⟩] 2).map Entry.path).Nodup ∧
    ∀ e ∈ [⟨"a.py", "blob"⟩, ⟨"b.js", "blob"⟩,
        (⟨"c.py", "blob"⟩ : Entry)].map extOfEntry,
      ∃ f ∈ _smart_sample [⟨"a.py", "blob"⟩, ⟨"b.js", "blob"⟩,
        ⟨"c.py", "blob"⟩] 2, extOfEntry f = e :=
  c2_sampler_invariants
    [⟨"a.py", "blob"⟩, ⟨"b.js", "blob"⟩, ⟨"c.py", "blob"⟩] 2
    (by decide) (by decide)

end Astrafenix
